import Mathlib

/-!
# TinyMesh: indexed triangle meshes and their procedural generators

A shallow embedding of `mesh.cpp` and `matrix.cpp`.

* Scalars (`double` in the sources) are the elements of a linearly ordered
  field `R`: arithmetic is exact.  The functions of `<cmath>` and the constants
  of `mathematics.h` that the sources call are the fields of `Mathematics R`;
  `Vector::Orthonormal` is a parameter of the generators that call it.
* `std::vector` is `List`; `push_back` appends at the end.
* `int` indices and resolutions are natural numbers: the generators build every
  index from non-negative loop counters with `+`, `*` and `%`.
* An access outside an array (`operator[]` or `at`) and a failed `assert` make
  an operation return `none`.
* A `for` loop over `0 .. n-1` is a left fold over `List.range n` that threads
  the mesh (and the loop-carried variables) through the body.
-/

set_option linter.unusedSectionVars false

namespace TinyMesh

/-! ## Vectors and the mathematics library -/

/-- Modelled from the spec: the `Vector` class of `mathematics.h` is not among the
sources; a vector has three real components. -/
structure Vector (R : Type) where
  x : R
  y : R
  z : R
deriving DecidableEq, Repr

/-- Modelled from the spec: the functions and constants that the sources use and do
not define: `sqrt`, `cos`, `sin` of `<cmath>` and `Math::Pi`, `Math::TwoPi` of
`mathematics.h`. They are parameters of the embedding. -/
structure Mathematics (R : Type) where
  sqrt : R → R
  cos : R → R
  sin : R → R
  Pi : R
  TwoPi : R

section VectorOps

variable {R : Type} [LinearOrderedField R]

/-- Modelled from the spec: `Vector::Null` of `mathematics.h`, the zero vector. -/
def Vector.Null : Vector R := ⟨0, 0, 0⟩

/-- Modelled from the spec: `Vector::Z` of `mathematics.h`, the third axis. -/
def Vector.Z : Vector R := ⟨0, 0, 1⟩

/-- Modelled from the spec: `operator+` on `Vector` (mathematics.h), component-wise. -/
def Vector.add (u v : Vector R) : Vector R := ⟨u.x + v.x, u.y + v.y, u.z + v.z⟩

/-- Modelled from the spec: `operator-` on `Vector` (mathematics.h), component-wise. -/
def Vector.sub (u v : Vector R) : Vector R := ⟨u.x - v.x, u.y - v.y, u.z - v.z⟩

/-- Modelled from the spec: unary `operator-` on `Vector` (mathematics.h). -/
def Vector.neg (u : Vector R) : Vector R := ⟨-u.x, -u.y, -u.z⟩

/-- Modelled from the spec: `operator*` of a `Vector` and a `double` (mathematics.h):
every component is multiplied by the scalar. -/
def Vector.scale (u : Vector R) (s : R) : Vector R := ⟨u.x * s, u.y * s, u.z * s⟩

/-- Modelled from the spec: `operator*` of a `double` and a `Vector` (mathematics.h). -/
def Vector.smul (s : R) (u : Vector R) : Vector R := ⟨s * u.x, s * u.y, s * u.z⟩

instance : Add (Vector R) := ⟨Vector.add⟩
instance : Sub (Vector R) := ⟨Vector.sub⟩
instance : Neg (Vector R) := ⟨Vector.neg⟩
instance : HMul (Vector R) R (Vector R) := ⟨Vector.scale⟩
instance : HMul R (Vector R) (Vector R) := ⟨Vector.smul⟩

/-- Modelled from the spec: the dot product of `mathematics.h`. -/
def Vector.dot (u v : Vector R) : R := u.x * v.x + u.y * v.y + u.z * v.z

/-- Modelled from the spec: the cross product of `mathematics.h`. -/
def Vector.cross (u v : Vector R) : Vector R :=
  ⟨u.y * v.z - u.z * v.y, u.z * v.x - u.x * v.z, u.x * v.y - u.y * v.x⟩

/-- Modelled from the spec: `Norm` of `mathematics.h`, the Euclidean length. -/
def Norm (sqrt : R → R) (u : Vector R) : R := sqrt (u.dot u)

/-- Modelled from the spec: `Normalized` (and the in-place `Normalize`) of
`mathematics.h`: the vector scaled by the inverse of its length. -/
def Normalized (sqrt : R → R) (u : Vector R) : Vector R := u * (1 / Norm sqrt u)

/-- Modelled from the spec: `Triangle(a, b, c).AreaNormal()` of `mathematics.h`: the
cross product of two edge vectors, not normalised. -/
def AreaNormal (a b c : Vector R) : Vector R := (b - a).cross (c - a)

/-- Modelled from the spec: `Math::Clamp` of `mathematics.h` with its default
bounds: the value clamped to the interval from `0` to `1`. -/
def Clamp (x : R) : R := if x < 0 then 0 else if 1 < x then 1 else x

end VectorOps

/-! ## Matrix3 (matrix.cpp) -/

/-- The class `Matrix3` of matrix.h: the nine entries `r[0] .. r[8]`. -/
structure Matrix3 (R : Type) where
  r0 : R
  r1 : R
  r2 : R
  r3 : R
  r4 : R
  r5 : R
  r6 : R
  r7 : R
  r8 : R
deriving DecidableEq, Repr

namespace Matrix3

variable {R : Type} [LinearOrderedField R]

/-- `Matrix3::Identity`. -/
def Identity : Matrix3 R := ⟨1, 0, 0, 0, 1, 0, 0, 0, 1⟩

/-- `Matrix3::Scaling`. -/
def Scaling (v : Vector R) : Matrix3 R := ⟨v.x, 0, 0, 0, v.y, 0, 0, 0, v.z⟩

/-- `Matrix3::Transpose`. -/
def Transpose (m : Matrix3 R) : Matrix3 R :=
  ⟨m.r0, m.r3, m.r6, m.r1, m.r4, m.r7, m.r2, m.r5, m.r8⟩

/-- `Matrix3::Inverse`: the `assert`s demand that the six off-diagonal entries are
zero (`none` when one fails); the result is the matrix with the three diagonal
entries replaced by their inverses. -/
def Inverse (m : Matrix3 R) : Option (Matrix3 R) :=
  if m.r1 = 0 ∧ m.r2 = 0 ∧ m.r3 = 0 ∧ m.r5 = 0 ∧ m.r6 = 0 ∧ m.r7 = 0 then
    some { m with r0 := 1 / m.r0, r4 := 1 / m.r4, r8 := 1 / m.r8 }
  else none

/-- `operator*(const Matrix3&, const Matrix3&)`. -/
def mul (u v : Matrix3 R) : Matrix3 R :=
  ⟨u.r0 * v.r0 + u.r3 * v.r1 + u.r6 * v.r2,
   u.r1 * v.r0 + u.r4 * v.r1 + u.r7 * v.r2,
   u.r2 * v.r0 + u.r5 * v.r1 + u.r8 * v.r2,
   u.r0 * v.r3 + u.r3 * v.r4 + u.r6 * v.r5,
   u.r1 * v.r3 + u.r4 * v.r4 + u.r7 * v.r5,
   u.r2 * v.r3 + u.r5 * v.r4 + u.r8 * v.r5,
   u.r0 * v.r6 + u.r3 * v.r7 + u.r6 * v.r8,
   u.r1 * v.r6 + u.r4 * v.r7 + u.r7 * v.r8,
   u.r2 * v.r6 + u.r5 * v.r7 + u.r8 * v.r8⟩

/-- `Matrix3::operator*(const Vector&)`. -/
def apply (m : Matrix3 R) (v : Vector R) : Vector R :=
  ⟨v.x * m.r0 + v.y * m.r3 + v.z * m.r6,
   v.x * m.r1 + v.y * m.r4 + v.z * m.r7,
   v.x * m.r2 + v.y * m.r5 + v.z * m.r8⟩

instance : Mul (Matrix3 R) := ⟨mul⟩
instance : HMul (Matrix3 R) (Vector R) (Vector R) := ⟨apply⟩

/-- `Matrix3::operator[]`: the stored entry `r[i]`, for `i` in `0..8`. -/
def get (m : Matrix3 R) (i : Nat) : R :=
  match i with
  | 0 => m.r0
  | 1 => m.r1
  | 2 => m.r2
  | 3 => m.r3
  | 4 => m.r4
  | 5 => m.r5
  | 6 => m.r6
  | 7 => m.r7
  | 8 => m.r8
  | _ => 0

end Matrix3

/-! ## Primitive descriptors -/

/-- Modelled from the spec: the axis-aligned `Box` of `box.h` (not among the
sources), given by its minimal corner `a` and its maximal corner `b`. -/
structure Box (R : Type) where
  a : Vector R
  b : Vector R

/-- Modelled from the spec: `Box::Vertex(k)` of `box.h`: bit `i` of `k` selects the
minimal or the maximal side along axis `i`. -/
def Box.Vertex {R : Type} (box : Box R) (k : Nat) : Vector R :=
  ⟨if k % 2 = 1 then box.b.x else box.a.x,
   if (k / 2) % 2 = 1 then box.b.y else box.a.y,
   if (k / 4) % 2 = 1 then box.b.z else box.a.z⟩

/-- The class `Sphere` of sphere.h: center and radius. -/
structure Sphere (R : Type) where
  c : Vector R
  r : R

/-- The class `Disc` of disc.h: center, normal and radius. -/
structure Disc (R : Type) where
  c : Vector R
  n : Vector R
  r : R

/-- The class `Cylinder` of cylinder.h: the two end points and the radius. -/
structure Cylinder (R : Type) where
  a : Vector R
  b : Vector R
  r : R

/-- `Cylinder::Vertex(i)`: `a` for `i = 0`, `b` otherwise. -/
def Cylinder.Vertex {R : Type} (c : Cylinder R) (i : Nat) : Vector R :=
  if i = 0 then c.a else c.b

/-- The class `Torus` of torus.h: a `Disc` and the radius `s` of the tube. -/
structure Torus (R : Type) extends Disc R where
  s : R

/-- `Torus::InnerRadius()`. -/
def Torus.InnerRadius {R : Type} (t : Torus R) : R := t.s

/-! ## The mesh -/

/-- The data members of `Mesh`: positions, normals and the two index arrays
(`varray` is the spec's `vertexIndex`, `narray` its `normalIndex`). -/
structure Mesh (R : Type) where
  vertices : List (Vector R) := []
  normals : List (Vector R) := []
  varray : List Nat := []
  narray : List Nat := []

/-- The Mesh invariants of the spec: the index arrays have the same length, a
multiple of three, and every index is valid for its array. -/
def Mesh.Inv {R : Type} (m : Mesh R) : Prop :=
  m.varray.length = m.narray.length ∧ 3 ∣ m.varray.length ∧
    (∀ k ∈ m.varray, k < m.vertices.length) ∧ (∀ k ∈ m.narray, k < m.normals.length)

namespace Mesh

variable {R : Type}

/-- `Mesh::AddSmoothTriangle`. -/
def AddSmoothTriangle (m : Mesh R) (a na b nb c nc : Nat) : Mesh R :=
  { m with varray := m.varray ++ [a, b, c], narray := m.narray ++ [na, nb, nc] }

/-- `Mesh::AddTriangle`. -/
def AddTriangle (m : Mesh R) (a b c n : Nat) : Mesh R :=
  { m with varray := m.varray ++ [a, b, c], narray := m.narray ++ [n, n, n] }

/-- `Mesh::AddSmoothQuadrangle`: the two smooth triangles `abc` and `acd`. -/
def AddSmoothQuadrangle (m : Mesh R) (a na b nb c nc d nd : Nat) : Mesh R :=
  (m.AddSmoothTriangle a na b nb c nc).AddSmoothTriangle a na c nc d nd

/-- `Mesh::AddQuadrangle`. -/
def AddQuadrangle (m : Mesh R) (a b c d : Nat) : Mesh R :=
  m.AddSmoothQuadrangle a a b b c c d d

/-- `vertices.push_back(v)`. -/
def pushVertex (m : Mesh R) (v : Vector R) : Mesh R :=
  { m with vertices := m.vertices ++ [v] }

/-- `normals.push_back(v)`. -/
def pushNormal (m : Mesh R) (v : Vector R) : Mesh R :=
  { m with normals := m.normals ++ [v] }

/-- `Mesh::Mesh(const std::vector<Vector>&, const std::vector<int>&)`: the
vertices and `varray` are copied, `normals` is resized to one `Vector::Z` per
vertex, `narray` is left as default-constructed. -/
def ofVertices [LinearOrderedField R] (vertices : List (Vector R)) (indices : List Nat) :
    Mesh R :=
  { vertices := vertices
    varray := indices
    normals := List.replicate vertices.length Vector.Z
    narray := [] }

/-- `Mesh::Mesh(vertices, normals, va, na)`. -/
def ofArrays (vertices normals : List (Vector R)) (va na : List Nat) : Mesh R :=
  { vertices := vertices, normals := normals, varray := va, narray := na }

/-! ## Generators -/

section Generators

variable {R : Type} [LinearOrderedField R]

/-- `Mesh::Mesh(const Box&)`: eight corners, six face normals, twelve
triangles. -/
def ofBox (box : Box R) : Mesh R :=
  let m : Mesh R := { vertices := (List.range 8).map box.Vertex }
  let m := m.pushNormal ⟨-1, 0, 0⟩
  let m := m.pushNormal ⟨1, 0, 0⟩
  let m := m.pushNormal ⟨0, -1, 0⟩
  let m := m.pushNormal ⟨0, 1, 0⟩
  let m := m.pushNormal ⟨0, 0, -1⟩
  let m := m.pushNormal ⟨0, 0, 1⟩
  let m := m.AddTriangle 0 2 1 4
  let m := m.AddTriangle 1 2 3 4
  let m := m.AddTriangle 4 5 6 5
  let m := m.AddTriangle 5 7 6 5
  let m := m.AddTriangle 0 4 2 0
  let m := m.AddTriangle 4 6 2 0
  let m := m.AddTriangle 1 3 5 1
  let m := m.AddTriangle 3 7 5 1
  let m := m.AddTriangle 0 1 5 2
  let m := m.AddTriangle 0 5 4 2
  let m := m.AddTriangle 3 2 7 3
  m.AddTriangle 6 7 2 3

/-- The body of the inner vertex loop of `Mesh::Mesh(const Sphere&, int)`
(mesh.cpp lines 107-114) for stack angle `stackAngle` and column `j`. -/
def sphereVertexStep (M : Mathematics R) (c : Vector R) (r sectorStep stackAngle : R)
    (m : Mesh R) (j : Nat) : Mesh R :=
  let sectorAngle := (j : R) * sectorStep
  let x := r * M.cos stackAngle * M.cos sectorAngle
  let y := r * M.cos stackAngle * M.sin sectorAngle
  let z := r * M.sin stackAngle
  let v : Vector R := ⟨x, y, z⟩
  (m.pushVertex v).pushNormal (Normalized M.sqrt (v - c))

/-- The body of the outer vertex loop of the sphere generator (lines 104-115). -/
def sphereRowStep (M : Mathematics R) (c : Vector R) (r sectorStep stackStep : R)
    (sectorCount : Nat) (m : Mesh R) (i : Nat) : Mesh R :=
  let stackAngle := M.Pi / 2 - (i : R) * stackStep
  (List.range (sectorCount + 1)).foldl (sphereVertexStep M c r sectorStep stackAngle) m

/-- The body of the inner triangle loop of the sphere generator (lines 124-131);
the state carries the mesh and the running indices `k1`, `k2`. -/
def sphereTriStep (stackCount i : Nat) (s : Mesh R × Nat × Nat) (_j : Nat) :
    Mesh R × Nat × Nat :=
  let m := s.1
  let k1 := s.2.1
  let k2 := s.2.2
  let m := if i ≠ 0 then m.AddSmoothTriangle k1 k1 k2 k2 (k1 + 1) (k1 + 1) else m
  let m := if i ≠ stackCount - 1 then
    m.AddSmoothTriangle (k1 + 1) (k1 + 1) k2 k2 (k2 + 1) (k2 + 1) else m
  (m, k1 + 1, k2 + 1)

/-- The body of the outer triangle loop of the sphere generator (lines 120-132). -/
def sphereBandStep (stackCount sectorCount : Nat) (m : Mesh R) (i : Nat) : Mesh R :=
  let k1 := i * (sectorCount + 1)
  let k2 := k1 + sectorCount + 1
  ((List.range sectorCount).foldl (sphereTriStep stackCount i) (m, k1, k2)).1

/-- `Mesh::Mesh(const Sphere&, int)`. -/
def ofSphere (M : Mathematics R) (sphere : Sphere R) (n : Nat) : Mesh R :=
  let c := sphere.c
  let r := sphere.r
  let stackCount := n
  let sectorCount := 2 * n
  let sectorStep := 2 * M.Pi / (sectorCount : R)
  let stackStep := M.Pi / (stackCount : R)
  let m := (List.range (stackCount + 1)).foldl
    (sphereRowStep M c r sectorStep stackStep sectorCount) {}
  (List.range stackCount).foldl (sphereBandStep stackCount sectorCount) m

/-- The ring loop shared by the disc and the two cylinder caps (lines 152-157,
186-191, 199-204): vertex `i` is `c + r * (x cos(phi) + y sin(phi))`. -/
def ringStep (M : Mathematics R) (c : Vector R) (r : R) (x y : Vector R) (dtPhi : R)
    (m : Mesh R) (i : Nat) : Mesh R :=
  let phi := (i : R) * dtPhi
  let v := x * M.cos phi + y * M.sin phi
  m.pushVertex (c + r * v)

/-- `Mesh::Mesh(const Disc&, int)`. The parameter `Orthonormal` is
`Vector::Orthonormal` of `mathematics.h`, which is not among the sources: it
returns the two vectors `x`, `y` that complete `z` to a basis. -/
def ofDisc (M : Mathematics R) (Orthonormal : Vector R → Vector R × Vector R)
    (d : Disc R) (n : Nat) : Mesh R :=
  let c := d.c
  let r := d.r
  let z := Normalized M.sqrt d.n
  let x := (Orthonormal z).1
  let y := (Orthonormal z).2
  let dtPhi := M.TwoPi / (n : R)
  let m := (List.range n).foldl (ringStep M c r x y dtPhi) {}
  let m := m.pushVertex c
  let m := m.pushNormal z
  (List.range n).foldl (fun m i => m.AddTriangle n i ((i + 1) % n) 0) m

/-- The body of the side loop of `Mesh::Mesh(const Cylinder&, int)` (lines
213-217); `vertices[i]` is read with `operator[]`. -/
def cylinderSideStep (M : Mathematics R) (a : Vector R) (n offset : Nat)
    (m : Mesh R) (i : Nat) : Mesh R :=
  let nn := Normalized M.sqrt (a - m.vertices.getD i Vector.Null)
  let m := m.pushNormal nn
  let m := m.AddTriangle i (offset + i) ((i + 1) % n) (m.normals.length - 1)
  m.AddTriangle ((i + 1) % n) (offset + i) (offset + ((i + 1) % n)) (m.normals.length - 1)

/-- The first cap of `Mesh::Mesh(const Cylinder&, int)` (lines 173-195): the ring
around `a`, the center `a`, the normal `-z` and the fan of the cap. -/
def cylinderFirstCap (M : Mathematics R) (Orthonormal : Vector R → Vector R × Vector R)
    (c : Cylinder R) (n : Nat) : Mesh R :=
  let a := c.Vertex 0
  let b := c.Vertex 1
  let r := c.r
  let z := Normalized M.sqrt (b - a)
  let x := (Orthonormal z).1
  let y := (Orthonormal z).2
  let dtPhi := M.TwoPi / (n : R)
  let m := (List.range n).foldl (ringStep M a r x y dtPhi) {}
  let m := m.pushVertex a
  let m := m.pushNormal (-z)
  (List.range n).foldl (fun m i => m.AddTriangle n i ((i + 1) % n) 0) m

/-- The second cap of `Mesh::Mesh(const Cylinder&, int)` (lines 197-208), added
to the mesh `m` of the first cap. -/
def cylinderSecondCap (M : Mathematics R) (Orthonormal : Vector R → Vector R × Vector R)
    (c : Cylinder R) (n : Nat) (m : Mesh R) : Mesh R :=
  let a := c.Vertex 0
  let b := c.Vertex 1
  let r := c.r
  let z := Normalized M.sqrt (b - a)
  let x := (Orthonormal z).1
  let y := (Orthonormal z).2
  let dtPhi := M.TwoPi / (n : R)
  let offset := m.vertices.length
  let m := (List.range n).foldl (ringStep M b r x y dtPhi) m
  let m := m.pushVertex b
  let m := m.pushNormal z
  (List.range n).foldl
    (fun m i => m.AddTriangle (offset + n) (offset + i) (offset + ((i + 1) % n)) 0) m

/-- `Mesh::Mesh(const Cylinder&, int)`: the two caps, then the side triangles;
`offset` is the number of vertices after the first cap. -/
def ofCylinder (M : Mathematics R) (Orthonormal : Vector R → Vector R × Vector R)
    (c : Cylinder R) (n : Nat) : Mesh R :=
  let m := cylinderFirstCap M Orthonormal c n
  let offset := m.vertices.length
  let m := cylinderSecondCap M Orthonormal c n m
  (List.range n).foldl (cylinderSideStep M (c.Vertex 0) n offset) m

/-- The body of the inner vertex loop of `Mesh::Mesh(const Torus&, int, int)`
(lines 243-249) for the angle `theta` of the slice. -/
def torusVertexStep (M : Mathematics R) (c : Vector R) (r r1 : R) (x y z : Vector R)
    (dtTheta theta : R) (m : Mesh R) (j : Nat) : Mesh R :=
  let phi := (j : R) * dtTheta
  let u := M.cos theta * x + M.sin theta * y
  let v := M.cos phi * u + M.sin phi * z
  (m.pushVertex (c + r * u + r1 * v)).pushNormal v

/-- The body of the outer vertex loop of the torus generator (lines 240-250). -/
def torusSliceStep (M : Mathematics R) (c : Vector R) (r r1 : R) (x y z : Vector R)
    (dtPhi dtTheta : R) (n : Nat) (m : Mesh R) (i : Nat) : Mesh R :=
  let theta := (i : R) * dtPhi
  (List.range n).foldl (torusVertexStep M c r r1 x y z dtTheta theta) m

/-- The body of the inner triangle loop of the torus generator (line 260): the
quadrangle of slice `j` and minor step `i`; `p` and `n` are both the minor
resolution. -/
def torusQuadStep (n p j : Nat) (m : Mesh R) (i : Nat) : Mesh R :=
  m.AddSmoothQuadrangle (j * p + i) (j * p + i)
    (((j + 1) % n) * p + i) (((j + 1) % n) * p + i)
    (((j + 1) % n) * p + (i + 1) % p) (((j + 1) % n) * p + (i + 1) % p)
    (j * p + (i + 1) % p) (j * p + (i + 1) % p)

/-- `Mesh::Mesh(const Torus&, int, int)`. The local `size = slice` of line 253 is
declared and never read: the triangle loops use `p = n` and `% n` only. -/
def ofTorus (M : Mathematics R) (Orthonormal : Vector R → Vector R × Vector R)
    (torus : Torus R) (n slice : Nat) : Mesh R :=
  let c := torus.c
  let r := torus.r
  let r1 := torus.InnerRadius
  let z := Normalized M.sqrt torus.n
  let x := (Orthonormal z).1
  let y := (Orthonormal z).2
  let dtPhi := M.TwoPi / (slice : R)
  let dtTheta := M.TwoPi / (n : R)
  let m := (List.range slice).foldl (torusSliceStep M c r r1 x y z dtPhi dtTheta n) {}
  let p := n
  (List.range slice).foldl (fun m j => (List.range p).foldl (torusQuadStep n p j) m) m

/-! ### Closed forms of the arrays the generators build

The lists below are what the loops above leave in the arrays, as the generator
lemmas further down prove. -/

/-- The position computed in lines 104-112 for row `i` and column `j`. -/
def spherePoint (M : Mathematics R) (r sectorStep stackStep : R) (i j : Nat) : Vector R :=
  ⟨r * M.cos (M.Pi / 2 - (i : R) * stackStep) * M.cos ((j : R) * sectorStep),
   r * M.cos (M.Pi / 2 - (i : R) * stackStep) * M.sin ((j : R) * sectorStep),
   r * M.sin (M.Pi / 2 - (i : R) * stackStep)⟩

/-- The indices that iteration `(i, j)` of the triangle loops of the sphere
generator appends (lines 120-131); `w` is `sectorCount + 1`. -/
def sphereCell (stackCount w i j : Nat) : List Nat :=
  (if i ≠ 0 then [i * w + j, i * w + j + w, i * w + j + 1] else []) ++
  (if i ≠ stackCount - 1 then [i * w + j + 1, i * w + j + w, i * w + j + w + 1] else [])

/-- The ring position of lines 154-156 (and 188-190, 201-203). -/
def ringPoint (M : Mathematics R) (c : Vector R) (r : R) (x y : Vector R) (dtPhi : R)
    (i : Nat) : Vector R :=
  c + r * (x * M.cos ((i : R) * dtPhi) + y * M.sin ((i : R) * dtPhi))

/-- The vertex indices of the fan triangle `i` of a cap whose ring starts at
`offset` (lines 165, 195, 208). -/
def fanCell (n offset i : Nat) : List Nat :=
  [offset + n, offset + i, offset + ((i + 1) % n)]

/-- The vertex indices of the two side triangles of column `i` of the cylinder
(lines 216-217). -/
def sideCell (n offset i : Nat) : List Nat :=
  [i, offset + i, (i + 1) % n, (i + 1) % n, offset + i, offset + ((i + 1) % n)]

/-- The indices of the quadrangle `(j, i)` of the torus (line 260, through
`AddSmoothQuadrangle`). -/
def torusCell (n p j i : Nat) : List Nat :=
  [j * p + i, ((j + 1) % n) * p + i, ((j + 1) % n) * p + (i + 1) % p,
   j * p + i, ((j + 1) % n) * p + (i + 1) % p, j * p + (i + 1) % p]

/-- The direction `u` of slice `i` of the torus (line 245). -/
def torusU (M : Mathematics R) (x y : Vector R) (dtPhi : R) (i : Nat) : Vector R :=
  M.cos ((i : R) * dtPhi) * x + M.sin ((i : R) * dtPhi) * y

/-- The tube direction `v` of slice `i` and minor step `j` of the torus (line
246), which is also the normal the generator stores (line 249). -/
def torusNormal (M : Mathematics R) (x y z : Vector R) (dtPhi dtTheta : R) (i j : Nat) :
    Vector R :=
  M.cos ((j : R) * dtTheta) * torusU M x y dtPhi i + M.sin ((j : R) * dtTheta) * z

/-- The position of slice `i` and minor step `j` of the torus (line 248). -/
def torusPoint (M : Mathematics R) (c : Vector R) (r r1 : R) (x y z : Vector R)
    (dtPhi dtTheta : R) (i j : Nat) : Vector R :=
  c + r * torusU M x y dtPhi i + r1 * torusNormal M x y z dtPhi dtTheta i j

end Generators

/-! ## Operations on a mesh -/

section Operations

variable {R : Type} [LinearOrderedField R]

/-- `std::vector::resize(n, v)`: the first `n` elements are kept, and `v` fills
the positions that did not exist. -/
def resize {α : Type} (l : List α) (n : Nat) (v : α) : List α :=
  l.take n ++ List.replicate (n - l.length) v

/-- `normals[k] += tn`, `none` when `k` is outside the array. -/
def addAt (normals : List (Vector R)) (k : Nat) (tn : Vector R) : Option (List (Vector R)) :=
  (normals[k]?).map (fun old => normals.set k (old + tn))

/-- The body of the accumulation loop of `Mesh::SmoothNormals` (lines 299-302)
for the triangle that starts at `i = 3 * t`. -/
def smoothStep (m : Mesh R) (t : Nat) : Option (Mesh R) := do
  let i := 3 * t
  let ia ← m.varray[i]?
  let ib ← m.varray[i + 1]?
  let ic ← m.varray[i + 2]?
  let a ← m.vertices[ia]?
  let b ← m.vertices[ib]?
  let c ← m.vertices[ic]?
  let tn := AreaNormal a b c
  let na ← m.narray[i + 0]?
  let normals ← addAt m.normals na tn
  let nb ← m.narray[i + 1]?
  let normals ← addAt normals nb tn
  let nc ← m.narray[i + 2]?
  let normals ← addAt normals nc tn
  pure { m with normals := normals }

/-- `Mesh::SmoothNormals`: `i` runs over `0, 3, 6, ...` below `varray.size()`. -/
def SmoothNormals (sqrt : R → R) (m : Mesh R) : Option (Mesh R) := do
  let m := { m with normals := resize m.normals m.vertices.length Vector.Null }
  let m := { m with narray := m.varray }
  let m ← (List.range ((m.varray.length + 2) / 3)).foldlM smoothStep m
  pure { m with normals := m.normals.map (Normalized sqrt) }

/-- `vertices[i] *= s` (line 390). -/
def scaleVertexStep (s : R) (m : Mesh R) (i : Nat) : Mesh R :=
  { m with vertices := m.vertices.set i (m.vertices.getD i Vector.Null * s) }

/-- `normals[i] = -normals[i]` (line 398). -/
def flipNormalStep (m : Mesh R) (i : Nat) : Mesh R :=
  { m with normals := m.normals.set i (-(m.normals.getD i Vector.Null)) }

/-- `Mesh::Scale(double)`: the loop over the vertices, then, for a negative `s`,
the loop over the normals. -/
def Scale (m : Mesh R) (s : R) : Mesh R :=
  let m := (List.range m.vertices.length).foldl (scaleVertexStep s) m
  if s < 0 then (List.range m.normals.length).foldl flipNormalStep m else m

/-- The body of the loop of `Mesh::Scale(const Matrix3&)` (lines 411-412): both
arrays are accessed at the same `i`. -/
def scaleStep (sqrt : R → R) (mat m_inv_t : Matrix3 R) (m : Mesh R) (i : Nat) :
    Option (Mesh R) := do
  let v ← m.vertices[i]?
  let m := { m with vertices := m.vertices.set i (mat * v) }
  let nn ← m.normals[i]?
  pure { m with normals := m.normals.set i (Normalized sqrt (m_inv_t * nn)) }

/-- `Mesh::Scale(const Matrix3&)`: `i` runs below `vertices.size()`. -/
def ScaleMatrix (sqrt : R → R) (m : Mesh R) (mat : Matrix3 R) : Option (Mesh R) := do
  let inv ← mat.Inverse
  let m_inv_t := inv.Transpose
  (List.range m.vertices.length).foldlM (scaleStep sqrt mat m_inv_t) m

/-- `Mesh::Rotate`: the loop over the vertices, then the loop over the normals. -/
def Rotate (m : Mesh R) (mat : Matrix3 R) : Mesh R :=
  let m := (List.range m.vertices.length).foldl
    (fun m i => { m with vertices := m.vertices.set i (mat * m.vertices.getD i Vector.Null) }) m
  (List.range m.normals.length).foldl
    (fun m i => { m with normals := m.normals.set i (mat * m.normals.getD i Vector.Null) }) m

/-- The body of the loop of `Mesh::SphereWarp` (lines 432-435). -/
def warpStep (sqrt : R → R) (c : Vector R) (r : R) (d : Vector R) (m : Mesh R) (i : Nat) :
    Mesh R :=
  let dd := Norm sqrt (m.vertices.getD i Vector.Null - c)
  let t := dd / r
  let t := Clamp t
  { m with vertices := m.vertices.set i (m.vertices.getD i Vector.Null + d * t) }

/-- `Mesh::SphereWarp`: the loop over the vertices, then `SmoothNormals()`. -/
def SphereWarp (sqrt : R → R) (m : Mesh R) (c : Vector R) (r : R) (d : Vector R) :
    Option (Mesh R) :=
  let m := (List.range m.vertices.length).foldl (warpStep sqrt c r d) m
  SmoothNormals sqrt m

/-- What the accumulation loop of `SmoothNormals` adds to the normal of vertex `k`
while it handles the triangle `t` (lines 299-302): the area normal of the
triangle, once for every corner of the triangle that is vertex `k`. -/
def cornerTerm (vertices : List (Vector R)) (varray : List Nat) (k t : Nat) : Vector R :=
  (if varray.getD (3 * t) 0 = k then
      AreaNormal (vertices.getD (varray.getD (3 * t) 0) Vector.Null)
        (vertices.getD (varray.getD (3 * t + 1) 0) Vector.Null)
        (vertices.getD (varray.getD (3 * t + 2) 0) Vector.Null) else Vector.Null) +
  (if varray.getD (3 * t + 1) 0 = k then
      AreaNormal (vertices.getD (varray.getD (3 * t) 0) Vector.Null)
        (vertices.getD (varray.getD (3 * t + 1) 0) Vector.Null)
        (vertices.getD (varray.getD (3 * t + 2) 0) Vector.Null) else Vector.Null) +
  (if varray.getD (3 * t + 2) 0 = k then
      AreaNormal (vertices.getD (varray.getD (3 * t) 0) Vector.Null)
        (vertices.getD (varray.getD (3 * t + 1) 0) Vector.Null)
        (vertices.getD (varray.getD (3 * t + 2) 0) Vector.Null) else Vector.Null)

/-- The sum of the area normals that the first `n` triangles contribute to
vertex `k`. -/
def cornerSum (vertices : List (Vector R)) (varray : List Nat) (k n : Nat) : Vector R :=
  (List.range n).foldl (fun acc t => acc + cornerTerm vertices varray k t) Vector.Null

/-- The quadrangle `(j, i)` of the torus in the words of the spec: `A`, `B`, `C`,
`D` with the next slice `(j + 1) mod slice` and the next minor step
`(i + 1) mod n`, as the two triangles `A B C` and `A C D`. -/
def torusSpecCell (n slice j i : Nat) : List Nat :=
  [j * n + i, ((j + 1) % slice) * n + i, ((j + 1) % slice) * n + (i + 1) % n,
   j * n + i, ((j + 1) % slice) * n + (i + 1) % n, j * n + (i + 1) % n]

/-- The index array of the torus in the words of the spec: the quadrangles of
every slice `j < slice` and every minor step `i < n`. -/
def torusSpecIndices (n slice : Nat) : List Nat :=
  (List.range slice).flatMap (fun j => (List.range n).flatMap (torusSpecCell n slice j))

end Operations

end Mesh

/-! ## Loops -/

section Loops

/-- A loop invariant for `for (j = 0; j < n; j++)`: it holds at entry and every
iteration `j < n` carries it from `j` to `j + 1`, so it holds for `n` at exit. -/
theorem foldl_range_inv {σ : Type} (P : Nat → σ → Prop) (f : σ → Nat → σ) (init : σ)
    (n : Nat) (h0 : P 0 init) (hstep : ∀ j s, j < n → P j s → P (j + 1) (f s j)) :
    P n ((List.range n).foldl f init) := by
  induction n with
  | zero => simpa using h0
  | succ k ih =>
    rw [List.range_succ, List.foldl_append]
    simp only [List.foldl_cons, List.foldl_nil]
    exact hstep k _ (Nat.lt_succ_self k) (ih fun j s hj => hstep j s (Nat.lt_succ_of_lt hj))

theorem set_getD_append {α : Type} (g : α → α) (d : α) (l1 : List α) (a : α) (l2 : List α) :
    (l1 ++ a :: l2).set l1.length (g ((l1 ++ a :: l2).getD l1.length d)) = l1 ++ g a :: l2 := by
  induction l1 with
  | nil => simp
  | cons b t ih => simpa using ih

theorem take_map_drop_set {α : Type} (f : α → α) (l : List α) (j : Nat) (d : α)
    (hj : j < l.length) :
    ((l.take j).map f ++ l.drop j).set j (f (((l.take j).map f ++ l.drop j).getD j d)) =
      (l.take (j + 1)).map f ++ l.drop (j + 1) := by
  have hlen : ((l.take j).map f).length = j := by
    rw [List.length_map, List.length_take]; omega
  have hdrop : l.drop j = l[j] :: l.drop (j + 1) := List.drop_eq_getElem_cons hj
  have htake : l.take (j + 1) = l.take j ++ [l[j]] := by
    rw [List.take_succ, List.getElem?_eq_getElem hj]; rfl
  rw [hdrop, htake]
  have := set_getD_append f d ((l.take j).map f) l[j] (l.drop (j + 1))
  rw [hlen] at this
  rw [this]
  simp only [List.map_append, List.map_cons, List.map_nil, List.append_assoc,
    List.singleton_append]

/-- An element-wise in-place loop over a whole array is `map`. -/
theorem foldl_set_eq_map {α : Type} (f : α → α) (d : α) (l : List α) :
    (List.range l.length).foldl (fun acc i => acc.set i (f (acc.getD i d))) l = l.map f := by
  have h := foldl_range_inv (fun j acc => acc = (l.take j).map f ++ l.drop j)
    (fun acc i => acc.set i (f (acc.getD i d))) l l.length (by simp)
    (fun j s hj hs => by subst hs; exact take_map_drop_set f l j d hj)
  simpa using h

end Loops


section VectorLemmas

variable {R : Type} [LinearOrderedField R]

theorem Vector.add_def (u v : Vector R) : u + v = ⟨u.x + v.x, u.y + v.y, u.z + v.z⟩ := rfl

theorem Vector.sub_def (u v : Vector R) : u - v = ⟨u.x - v.x, u.y - v.y, u.z - v.z⟩ := rfl

theorem Vector.neg_def (u : Vector R) : -u = ⟨-u.x, -u.y, -u.z⟩ := rfl

theorem Vector.scale_def (u : Vector R) (s : R) : u * s = ⟨u.x * s, u.y * s, u.z * s⟩ := rfl

theorem Vector.smul_def (s : R) (u : Vector R) : s * u = ⟨s * u.x, s * u.y, s * u.z⟩ := rfl

end VectorLemmas

namespace Mesh
section OperationLemmas
variable {R : Type} [LinearOrderedField R]

/-- An in-place loop over all the vertices replaces the vertex array by its image
and touches nothing else. -/
theorem vertices_loop (f : Vector R → Vector R) (m : Mesh R) :
    (List.range m.vertices.length).foldl
      (fun m i => { m with vertices := m.vertices.set i (f (m.vertices.getD i Vector.Null)) }) m =
      { m with vertices := m.vertices.map f } := by
  have h := foldl_range_inv
    (fun j (m' : Mesh R) => m' = { m with vertices := (m.vertices.take j).map f ++ m.vertices.drop j })
    (fun m i => { m with vertices := m.vertices.set i (f (m.vertices.getD i Vector.Null)) })
    m m.vertices.length (by simp)
    (fun j s hj hs => by
      subst hs
      simp only
      rw [take_map_drop_set f m.vertices j Vector.Null hj])
  simpa using h

/-- An in-place loop over all the normals replaces the normal array by its image
and touches nothing else. -/
theorem normals_loop (f : Vector R → Vector R) (m : Mesh R) :
    (List.range m.normals.length).foldl
      (fun m i => { m with normals := m.normals.set i (f (m.normals.getD i Vector.Null)) }) m =
      { m with normals := m.normals.map f } := by
  have h := foldl_range_inv
    (fun j (m' : Mesh R) => m' = { m with normals := (m.normals.take j).map f ++ m.normals.drop j })
    (fun m i => { m with normals := m.normals.set i (f (m.normals.getD i Vector.Null)) })
    m m.normals.length (by simp)
    (fun j s hj hs => by
      subst hs
      simp only
      rw [take_map_drop_set f m.normals j Vector.Null hj])
  simpa using h

theorem Scale_eq (m : Mesh R) (s : R) :
    m.Scale s = if s < 0 then
      { m with vertices := m.vertices.map (fun v => v * s), normals := m.normals.map (fun n => -n) }
      else { m with vertices := m.vertices.map (fun v => v * s) } := by
  have hv := vertices_loop (fun v => v * s) m
  unfold Scale
  simp only
  have hv' : (List.range m.vertices.length).foldl (scaleVertexStep s) m =
      { m with vertices := m.vertices.map (fun v => v * s) } := hv
  rw [hv']
  split
  · exact normals_loop (fun n => -n) _
  · rfl

end OperationLemmas
end Mesh

/-- C7: `Scale(s)` multiplies every vertex position by `s` and leaves both index
arrays unchanged; for `s < 0` every normal is replaced by its negation, for
`s > 0` the normals are unchanged. -/
theorem C7_scale_scalar {R : Type} [LinearOrderedField R] (m : Mesh R) (s : R) :
    (m.Scale s).vertices = m.vertices.map (fun (v : Vector R) => v * s) ∧
    (m.Scale s).varray = m.varray ∧ (m.Scale s).narray = m.narray ∧
    (s < 0 → (m.Scale s).normals = m.normals.map (fun (n : Vector R) => -n)) ∧
    (0 < s → (m.Scale s).normals = m.normals) := by
  rw [Mesh.Scale_eq]
  split_ifs with hs
  · exact ⟨rfl, rfl, rfl, fun _ => rfl, fun h => absurd h (not_lt.mpr hs.le)⟩
  · exact ⟨rfl, rfl, rfl, fun h => absurd h hs, fun _ => rfl⟩

/-- C7 at a concrete mesh over the rationals, scaled by `-2`. -/
theorem C7_scale_scalar_witness :
    ((Mesh.ofArrays [⟨1, 2, 3⟩, ⟨0, 1, 0⟩, ⟨0, 0, 1⟩] [⟨0, 0, 1⟩] [0, 1, 2] [0, 0, 0] :
        Mesh ℚ).Scale (-2)).vertices = [⟨-2, -4, -6⟩, ⟨0, -2, 0⟩, ⟨0, 0, -2⟩] ∧
    ((Mesh.ofArrays [⟨1, 2, 3⟩, ⟨0, 1, 0⟩, ⟨0, 0, 1⟩] [⟨0, 0, 1⟩] [0, 1, 2] [0, 0, 0] :
        Mesh ℚ).Scale (-2)).normals = [⟨0, 0, -1⟩] := by
  have h := C7_scale_scalar
    (Mesh.ofArrays [⟨1, 2, 3⟩, ⟨0, 1, 0⟩, ⟨0, 0, 1⟩] [⟨0, 0, 1⟩] [0, 1, 2] [0, 0, 0] : Mesh ℚ) (-2)
  refine ⟨h.1.trans ?_, (h.2.2.2.1 (by norm_num)).trans ?_⟩
  · norm_num [Mesh.ofArrays, Vector.scale_def]
  · norm_num [Mesh.ofArrays, Vector.neg_def]


section BoxLemmas

variable {R : Type} [LinearOrderedField R]

theorem ofBox_narray (box : Box R) :
    (Mesh.ofBox box).narray =
      [4, 4, 4, 4, 4, 4, 5, 5, 5, 5, 5, 5, 0, 0, 0, 0, 0, 0, 1, 1, 1, 1, 1, 1,
       2, 2, 2, 2, 2, 2, 3, 3, 3, 3, 3, 3] := rfl

theorem ofBox_varray (box : Box R) :
    (Mesh.ofBox box).varray =
      [0, 2, 1, 1, 2, 3, 4, 5, 6, 5, 7, 6, 0, 4, 2, 4, 6, 2, 1, 3, 5, 3, 7, 5,
       0, 1, 5, 0, 5, 4, 3, 2, 7, 6, 7, 2] := rfl

theorem ofBox_vertices_length (box : Box R) : (Mesh.ofBox box).vertices.length = 8 := rfl

theorem ofBox_normals (box : Box R) :
    (Mesh.ofBox box).normals =
      [⟨-1, 0, 0⟩, ⟨1, 0, 0⟩, ⟨0, -1, 0⟩, ⟨0, 1, 0⟩, ⟨0, 0, -1⟩, ⟨0, 0, 1⟩] := rfl

end BoxLemmas

/-- C8: `Mesh(box)` has 8 vertices, 6 normals and 36 entries in each index array
(12 triangles); the three corners of every triangle carry one normal index, and
each normal index `0..5` is used by exactly two of the twelve triangles. -/
theorem C8_box_counts {R : Type} [LinearOrderedField R] (box : Box R) :
    (Mesh.ofBox box).vertices.length = 8 ∧ (Mesh.ofBox box).normals.length = 6 ∧
    (Mesh.ofBox box).varray.length = 36 ∧ (Mesh.ofBox box).narray.length = 36 ∧
    (∀ t : Fin 12, ∃ f : Fin 6, (Mesh.ofBox box).narray[3 * t.val]? = some f.val ∧
      (Mesh.ofBox box).narray[3 * t.val + 1]? = some f.val ∧
      (Mesh.ofBox box).narray[3 * t.val + 2]? = some f.val) ∧
    (∀ f : Fin 6, ((List.range 12).filter
      (fun t => (Mesh.ofBox box).narray[3 * t]? = some f.val)).length = 2) := by
  rw [ofBox_narray, ofBox_varray, ofBox_vertices_length, ofBox_normals]
  refine ⟨rfl, rfl, rfl, rfl, ?_, ?_⟩
  · decide
  · decide

/-- C10 (the code at a failing input): the constructor `Mesh(vertices, indices)`
never fills `narray`: for three vertices and the triangle `0, 1, 2` the vertex
index array has three entries and the normal index array none, so the Mesh
invariants do not hold. -/
theorem C10_ofVertices_narray_empty :
    (Mesh.ofVertices [⟨0, 0, 0⟩, ⟨1, 0, 0⟩, ⟨0, 1, 0⟩] [0, 1, 2] : Mesh ℚ).varray.length = 3 ∧
    (Mesh.ofVertices [⟨0, 0, 0⟩, ⟨1, 0, 0⟩, ⟨0, 1, 0⟩] [0, 1, 2] : Mesh ℚ).narray.length = 0 ∧
    (∀ k ∈ [0, 1, 2], k < ([⟨0, 0, 0⟩, ⟨1, 0, 0⟩, ⟨0, 1, 0⟩] : List (Vector ℚ)).length) ∧
    ¬ (Mesh.ofVertices [⟨0, 0, 0⟩, ⟨1, 0, 0⟩, ⟨0, 1, 0⟩] [0, 1, 2] : Mesh ℚ).Inv := by
  refine ⟨rfl, rfl, by decide, ?_⟩
  intro h
  exact absurd h.1 (by decide)


section ListLemmas

/-- Cells of one length `k` concatenate to a list of length `l.length * k`. -/
theorem length_flatMap_const {α β : Type} (l : List α) (g : α → List β) (k : Nat)
    (h : ∀ a ∈ l, (g a).length = k) : (l.flatMap g).length = l.length * k := by
  induction l with
  | nil => simp
  | cons a t ih =>
    rw [List.flatMap_cons, List.length_append, h a (List.mem_cons_self a t),
      ih (fun b hb => h b (List.mem_cons_of_mem a hb)), List.length_cons]
    ring

/-- Entry `i * k + j` of a concatenation of cells of length `k` is entry `j` of
cell `i`. -/
theorem getElem?_flatMap_range {β : Type} (g : Nat → List β) (k n i j : Nat)
    (h : ∀ a, a < n → (g a).length = k) (hi : i < n) (hj : j < k) :
    ((List.range n).flatMap g)[i * k + j]? = (g i)[j]? := by
  induction n with
  | zero => omega
  | succ m ih =>
    have hlen : ((List.range m).flatMap g).length = m * k := by
      rw [length_flatMap_const (List.range m) g k
        (fun a ha => h a (Nat.lt_succ_of_lt (List.mem_range.mp ha))), List.length_range]
    rw [List.range_succ, List.flatMap_append, List.flatMap_singleton]
    by_cases him : i < m
    · have hlt : i * k + j < m * k := by
        calc i * k + j < i * k + k := by omega
          _ = (i + 1) * k := by ring
          _ ≤ m * k := Nat.mul_le_mul_right k him
      rw [List.getElem?_append_left (by rw [hlen]; exact hlt)]
      exact ih (fun a ha => h a (Nat.lt_succ_of_lt ha)) him
    · have : i = m := by omega
      subst this
      rw [List.getElem?_append_right (by rw [hlen]; omega), hlen]
      congr 1
      omega

end ListLemmas

namespace Mesh
section SphereLemmas

variable {R : Type} [LinearOrderedField R]

theorem sphereRowStep_eq (M : Mathematics R) (c : Vector R) (r sectorStep stackStep : R)
    (sectorCount : Nat) (m : Mesh R) (i : Nat) :
    sphereRowStep M c r sectorStep stackStep sectorCount m i =
      { m with
        vertices := m.vertices ++
          (List.range (sectorCount + 1)).map (spherePoint M r sectorStep stackStep i)
        normals := m.normals ++ (List.range (sectorCount + 1)).map
          (fun j => Normalized M.sqrt (spherePoint M r sectorStep stackStep i j - c)) } := by
  unfold sphereRowStep
  exact foldl_range_inv
    (fun k (m' : Mesh R) => m' = { m with
        vertices := m.vertices ++ (List.range k).map (spherePoint M r sectorStep stackStep i)
        normals := m.normals ++ (List.range k).map
          (fun j => Normalized M.sqrt (spherePoint M r sectorStep stackStep i j - c)) })
    _ m (sectorCount + 1) (by simp)
    (fun j s _ hs => by
      subst hs
      simp [sphereVertexStep, pushVertex, pushNormal, spherePoint, List.range_succ])

theorem sphereBandStep_eq (stackCount sectorCount : Nat) (m : Mesh R) (i : Nat) :
    sphereBandStep stackCount sectorCount m i =
      { m with
        varray := m.varray ++
          (List.range sectorCount).flatMap (sphereCell stackCount (sectorCount + 1) i)
        narray := m.narray ++
          (List.range sectorCount).flatMap (sphereCell stackCount (sectorCount + 1) i) } := by
  unfold sphereBandStep
  have h := foldl_range_inv
    (fun k (s : Mesh R × Nat × Nat) => s.1 = { m with
        varray := m.varray ++ (List.range k).flatMap (sphereCell stackCount (sectorCount + 1) i)
        narray := m.narray ++ (List.range k).flatMap (sphereCell stackCount (sectorCount + 1) i) } ∧
        s.2.1 = i * (sectorCount + 1) + k ∧ s.2.2 = i * (sectorCount + 1) + k + (sectorCount + 1))
    (sphereTriStep stackCount i) (m, i * (sectorCount + 1), i * (sectorCount + 1) + sectorCount + 1)
    sectorCount ⟨by simp, by simp, by simp only; omega⟩
    (fun j s _ hs => by
      obtain ⟨m', k1, k2⟩ := s
      obtain ⟨h1, h2, h3⟩ := hs
      simp only at h1 h2 h3
      subst h1 h2 h3
      refine ⟨?_, by simp only [sphereTriStep]; omega, by simp only [sphereTriStep]; omega⟩
      simp only [sphereTriStep, sphereCell, List.range_succ, List.flatMap_append,
        List.flatMap_singleton, AddSmoothTriangle]
      split_ifs <;> simp)
  exact h.1

/-- A loop whose body appends to the four arrays leaves the concatenation of what
the iterations append. -/
theorem foldl_append_arrays (f : Mesh R → Nat → Mesh R) (A B : Nat → List (Vector R))
    (C D : Nat → List Nat)
    (hf : ∀ m i, f m i = { vertices := m.vertices ++ A i, normals := m.normals ++ B i,
                           varray := m.varray ++ C i, narray := m.narray ++ D i })
    (m : Mesh R) (n : Nat) :
    (List.range n).foldl f m =
      { vertices := m.vertices ++ (List.range n).flatMap A
        normals := m.normals ++ (List.range n).flatMap B
        varray := m.varray ++ (List.range n).flatMap C
        narray := m.narray ++ (List.range n).flatMap D } :=
  foldl_range_inv
    (fun k (m' : Mesh R) => m' =
      { vertices := m.vertices ++ (List.range k).flatMap A
        normals := m.normals ++ (List.range k).flatMap B
        varray := m.varray ++ (List.range k).flatMap C
        narray := m.narray ++ (List.range k).flatMap D })
    f m n (by simp)
    (fun j s _ hs => by
      subst hs
      rw [hf]
      simp [List.range_succ])

/-- The arrays of `Mesh(Sphere, n)` in closed form. -/
theorem ofSphere_eq (M : Mathematics R) (sphere : Sphere R) (n : Nat) :
    ofSphere M sphere n =
      { vertices := (List.range (n + 1)).flatMap (fun i => (List.range (2 * n + 1)).map
          (spherePoint M sphere.r (2 * M.Pi / ((2 * n : Nat) : R)) (M.Pi / (n : R)) i))
        normals := (List.range (n + 1)).flatMap (fun i => (List.range (2 * n + 1)).map
          (fun j => Normalized M.sqrt
            (spherePoint M sphere.r (2 * M.Pi / ((2 * n : Nat) : R)) (M.Pi / (n : R)) i j
              - sphere.c)))
        varray := (List.range n).flatMap (fun i =>
          (List.range (2 * n)).flatMap (sphereCell n (2 * n + 1) i))
        narray := (List.range n).flatMap (fun i =>
          (List.range (2 * n)).flatMap (sphereCell n (2 * n + 1) i)) } := by
  unfold ofSphere
  simp only
  rw [foldl_append_arrays
    (sphereRowStep M sphere.c sphere.r (2 * M.Pi / ((2 * n : Nat) : R)) (M.Pi / (n : R)) (2 * n))
    (fun i => (List.range (2 * n + 1)).map
      (spherePoint M sphere.r (2 * M.Pi / ((2 * n : Nat) : R)) (M.Pi / (n : R)) i))
    (fun i => (List.range (2 * n + 1)).map (fun j => Normalized M.sqrt
      (spherePoint M sphere.r (2 * M.Pi / ((2 * n : Nat) : R)) (M.Pi / (n : R)) i j - sphere.c)))
    (fun _ => []) (fun _ => [])
    (fun m i => by rw [sphereRowStep_eq]; simp)]
  rw [foldl_append_arrays (sphereBandStep n (2 * n)) (fun _ => []) (fun _ => [])
    (fun i => (List.range (2 * n)).flatMap (sphereCell n (2 * n + 1) i))
    (fun i => (List.range (2 * n)).flatMap (sphereCell n (2 * n + 1) i))
    (fun m i => by rw [sphereBandStep_eq]; simp)]
  simp

end SphereLemmas
end Mesh
namespace Mesh
section SphereCounts

variable {R : Type} [LinearOrderedField R]

theorem sphereCell_length (n w i j : Nat) :
    (sphereCell n w i j).length =
      3 * ((if i ≠ 0 then 1 else 0) + (if i ≠ n - 1 then 1 else 0)) := by
  unfold sphereCell
  split_ifs <;> simp

/-- The number of indices of the first `k` bands of the sphere. -/
theorem sphere_bands_length (n w k : Nat) (hk : k ≤ n) :
    ((List.range k).flatMap (fun i => (List.range (2 * n)).flatMap (sphereCell n w i))).length =
      6 * n * ((k - 1) + min k (n - 1)) := by
  induction k with
  | zero => simp
  | succ k ih =>
    rw [List.range_succ, List.flatMap_append, List.length_append, ih (by omega),
      List.flatMap_singleton,
      length_flatMap_const (List.range (2 * n)) (sphereCell n w k) _
        (fun j _ => sphereCell_length n w k j), List.length_range]
    have h : (k + 1 - 1) + min (k + 1) (n - 1) =
        ((k - 1) + min k (n - 1)) +
          ((if k ≠ 0 then 1 else 0) + (if k ≠ n - 1 then 1 else 0)) := by
      split_ifs <;> omega
    rw [h]
    ring

theorem sphere_index_bound (n i j k : Nat) (hi : i < n) (hj : j < 2 * n)
    (hk : k ∈ sphereCell n (2 * n + 1) i j) : k < (n + 1) * (2 * n + 1) := by
  have h1 : (i + 1) * (2 * n + 1) ≤ n * (2 * n + 1) := Nat.mul_le_mul_right _ hi
  have h2 : (i + 1) * (2 * n + 1) = i * (2 * n + 1) + (2 * n + 1) := by ring
  have h3 : (n + 1) * (2 * n + 1) = n * (2 * n + 1) + (2 * n + 1) := by ring
  unfold sphereCell at hk
  rw [h3]
  rw [h2] at h1
  generalize i * (2 * n + 1) = a at *
  generalize n * (2 * n + 1) = b at *
  split_ifs at hk <;> simp at hk <;> omega

end SphereCounts
end Mesh

/-- C9: for `n ≥ 1`, `Mesh(Sphere, n)` has `(n+1)*(2n+1)` vertices and as many
normals, `2n*(2n) - 2*2n` triangles (three indices each), and the normal index
of every corner is its vertex index. -/
theorem C9_sphere_counts {R : Type} [LinearOrderedField R] (M : Mathematics R)
    (sphere : Sphere R) (n : Nat) (hn : 1 ≤ n) :
    (Mesh.ofSphere M sphere n).vertices.length = (n + 1) * (2 * n + 1) ∧
    (Mesh.ofSphere M sphere n).normals.length = (n + 1) * (2 * n + 1) ∧
    (Mesh.ofSphere M sphere n).varray.length = 3 * (2 * n * (2 * n) - 2 * (2 * n)) ∧
    (Mesh.ofSphere M sphere n).narray = (Mesh.ofSphere M sphere n).varray := by
  rw [Mesh.ofSphere_eq]
  refine ⟨?_, ?_, ?_, rfl⟩
  · simp only
    rw [length_flatMap_const _ _ (2 * n + 1) (fun i _ => by simp), List.length_range]
  · simp only
    rw [length_flatMap_const _ _ (2 * n + 1) (fun i _ => by simp), List.length_range]
  · simp only
    rw [Mesh.sphere_bands_length n (2 * n + 1) n (le_refl n)]
    obtain ⟨k, rfl⟩ : ∃ k, n = k + 1 := ⟨n - 1, by omega⟩
    have h : 2 * (k + 1) * (2 * (k + 1)) - 2 * (2 * (k + 1)) = 4 * (k + 1) * k := by
      apply Nat.sub_eq_of_eq_add
      ring
    rw [h]
    simp only [Nat.add_sub_cancel, Nat.min_eq_right (Nat.le_succ k)]
    ring

/-- C9 at `n = 4`: 45 vertices, 45 normals and 48 triangles. -/
theorem C9_sphere_counts_witness :
    (Mesh.ofSphere (⟨Real.sqrt, Real.cos, Real.sin, Real.pi, 2 * Real.pi⟩ : Mathematics ℝ)
      ⟨⟨0, 0, 0⟩, 1⟩ 4).vertices.length = 45 ∧
    (Mesh.ofSphere (⟨Real.sqrt, Real.cos, Real.sin, Real.pi, 2 * Real.pi⟩ : Mathematics ℝ)
      ⟨⟨0, 0, 0⟩, 1⟩ 4).varray.length = 3 * 48 := by
  have h := C9_sphere_counts (⟨Real.sqrt, Real.cos, Real.sin, Real.pi, 2 * Real.pi⟩ : Mathematics ℝ)
    ⟨⟨0, 0, 0⟩, 1⟩ 4 (by decide)
  exact ⟨h.1, h.2.2.1⟩

namespace Mesh
section GeneratorLemmas

variable {R : Type} [LinearOrderedField R]

theorem flatMap_singleton_map {α β : Type} (g : α → β) (l : List α) :
    (l.flatMap fun i => [g i]) = l.map g := by
  induction l with
  | nil => rfl
  | cons a t ih => simp [List.flatMap_cons, ih]

/-- The ring loop appends the `n` ring positions to the vertices. -/
theorem ring_loop (M : Mathematics R) (c : Vector R) (r : R) (x y : Vector R) (dtPhi : R)
    (m : Mesh R) (n : Nat) :
    (List.range n).foldl (ringStep M c r x y dtPhi) m =
      { m with vertices := m.vertices ++ (List.range n).map (ringPoint M c r x y dtPhi) } := by
  rw [foldl_append_arrays (ringStep M c r x y dtPhi) (fun i => [ringPoint M c r x y dtPhi i])
    (fun _ => []) (fun _ => []) (fun _ => [])
    (fun m i => by simp [ringStep, pushVertex, ringPoint])]
  simp [flatMap_singleton_map]

/-- The fan loop of a cap appends its `n` triangles, all with normal index `0`. -/
theorem fan_loop (n offset : Nat) (m : Mesh R) (k : Nat) :
    (List.range k).foldl
      (fun m i => m.AddTriangle (offset + n) (offset + i) (offset + ((i + 1) % n)) 0) m =
      { m with varray := m.varray ++ (List.range k).flatMap (fanCell n offset)
               narray := m.narray ++ (List.range k).flatMap (fun _ => [0, 0, 0]) } := by
  rw [foldl_append_arrays _ (fun _ => []) (fun _ => []) (fanCell n offset) (fun _ => [0, 0, 0])
    (fun m i => by simp [AddTriangle, fanCell])]
  simp

/-- The fan loop of the first cap (and of the disc), whose ring starts at `0`. -/
theorem fan_loop_zero (n : Nat) (m : Mesh R) (k : Nat) :
    (List.range k).foldl (fun m i => m.AddTriangle n i ((i + 1) % n) 0) m =
      { m with varray := m.varray ++ (List.range k).flatMap (fanCell n 0)
               narray := m.narray ++ (List.range k).flatMap (fun _ => [0, 0, 0]) } := by
  rw [foldl_append_arrays _ (fun _ => []) (fun _ => []) (fanCell n 0) (fun _ => [0, 0, 0])
    (fun m i => by simp [AddTriangle, fanCell])]
  simp

/-- The arrays of `Mesh(Disc, n)` in closed form. -/
theorem ofDisc_eq (M : Mathematics R) (O : Vector R → Vector R × Vector R) (d : Disc R)
    (n : Nat) :
    ofDisc M O d n =
      { vertices := (List.range n).map (ringPoint M d.c d.r (O (Normalized M.sqrt d.n)).1
          (O (Normalized M.sqrt d.n)).2 (M.TwoPi / (n : R))) ++ [d.c]
        normals := [Normalized M.sqrt d.n]
        varray := (List.range n).flatMap (fanCell n 0)
        narray := (List.range n).flatMap (fun _ => [0, 0, 0]) } := by
  unfold ofDisc
  simp only
  rw [ring_loop, fan_loop_zero]
  simp [pushVertex, pushNormal]

/-- The arrays after the first cap of the cylinder. -/
theorem cylinderFirstCap_eq (M : Mathematics R) (O : Vector R → Vector R × Vector R)
    (c : Cylinder R) (n : Nat) :
    cylinderFirstCap M O c n =
      { vertices := (List.range n).map (ringPoint M c.a c.r
          (O (Normalized M.sqrt (c.b - c.a))).1 (O (Normalized M.sqrt (c.b - c.a))).2
          (M.TwoPi / (n : R))) ++ [c.a]
        normals := [-(Normalized M.sqrt (c.b - c.a))]
        varray := (List.range n).flatMap (fanCell n 0)
        narray := (List.range n).flatMap (fun _ => [0, 0, 0]) } := by
  unfold cylinderFirstCap
  simp only
  rw [ring_loop, fan_loop_zero]
  simp [pushVertex, pushNormal, Cylinder.Vertex]

/-- The second cap appends its ring, its center, the normal `z` and its fan,
whose triangles carry the normal index `0`. -/
theorem cylinderSecondCap_eq (M : Mathematics R) (O : Vector R → Vector R × Vector R)
    (c : Cylinder R) (n : Nat) (m : Mesh R) :
    cylinderSecondCap M O c n m =
      { vertices := m.vertices ++ ((List.range n).map (ringPoint M c.b c.r
          (O (Normalized M.sqrt (c.b - c.a))).1 (O (Normalized M.sqrt (c.b - c.a))).2
          (M.TwoPi / (n : R))) ++ [c.b])
        normals := m.normals ++ [Normalized M.sqrt (c.b - c.a)]
        varray := m.varray ++ (List.range n).flatMap (fanCell n m.vertices.length)
        narray := m.narray ++ (List.range n).flatMap (fun _ => [0, 0, 0]) } := by
  unfold cylinderSecondCap
  simp only
  rw [ring_loop, fan_loop]
  simp [pushVertex, pushNormal, Cylinder.Vertex]

/-- The side loop of the cylinder: column `i` appends the normal
`Normalized(a - vertices[i])`, whose index is the number of normals before it,
and two triangles that carry this index. -/
theorem side_loop (M : Mathematics R) (a : Vector R) (n offset : Nat) (m : Mesh R) (k : Nat) :
    (List.range k).foldl (cylinderSideStep M a n offset) m =
      { vertices := m.vertices
        normals := m.normals ++ (List.range k).map
          (fun i => Normalized M.sqrt (a - m.vertices.getD i Vector.Null))
        varray := m.varray ++ (List.range k).flatMap (sideCell n offset)
        narray := m.narray ++ (List.range k).flatMap
          (fun i => List.replicate 6 (m.normals.length + i)) } :=
  foldl_range_inv
    (fun k (m' : Mesh R) => m' =
      { vertices := m.vertices
        normals := m.normals ++ (List.range k).map
          (fun i => Normalized M.sqrt (a - m.vertices.getD i Vector.Null))
        varray := m.varray ++ (List.range k).flatMap (sideCell n offset)
        narray := m.narray ++ (List.range k).flatMap
          (fun i => List.replicate 6 (m.normals.length + i)) })
    _ m k (by simp)
    (fun j s _ hs => by
      subst hs
      simp [cylinderSideStep, pushNormal, AddTriangle, sideCell, List.range_succ,
        List.replicate])

/-- The arrays of `Mesh(Cylinder, n)` in closed form. -/
theorem ofCylinder_eq (M : Mathematics R) (O : Vector R → Vector R × Vector R)
    (c : Cylinder R) (n : Nat) :
    ofCylinder M O c n =
      { vertices := (cylinderSecondCap M O c n (cylinderFirstCap M O c n)).vertices
        normals := [-(Normalized M.sqrt (c.b - c.a)), Normalized M.sqrt (c.b - c.a)] ++
          (List.range n).map (fun i => Normalized M.sqrt (c.a -
            (cylinderSecondCap M O c n (cylinderFirstCap M O c n)).vertices.getD i Vector.Null))
        varray := (List.range n).flatMap (fanCell n 0) ++
          (List.range n).flatMap (fanCell n (n + 1)) ++
          (List.range n).flatMap (sideCell n (n + 1))
        narray := (List.range n).flatMap (fun _ => [0, 0, 0]) ++
          (List.range n).flatMap (fun _ => [0, 0, 0]) ++
          (List.range n).flatMap (fun i => List.replicate 6 (2 + i)) } := by
  unfold ofCylinder
  simp only
  rw [side_loop]
  have hlen : (cylinderFirstCap M O c n).vertices.length = n + 1 := by
    rw [cylinderFirstCap_eq]; simp
  rw [hlen]
  rw [cylinderSecondCap_eq, cylinderFirstCap_eq]
  simp [Cylinder.Vertex]

/-- The length of the vertex array of the cylinder. -/
theorem ofCylinder_vertices_length (M : Mathematics R) (O : Vector R → Vector R × Vector R)
    (c : Cylinder R) (n : Nat) : (ofCylinder M O c n).vertices.length = 2 * n + 2 := by
  rw [ofCylinder_eq, cylinderSecondCap_eq, cylinderFirstCap_eq]
  simp
  omega

end GeneratorLemmas
end Mesh
namespace Mesh
section TorusLemmas

variable {R : Type} [LinearOrderedField R]

theorem torusSliceStep_eq (M : Mathematics R) (c : Vector R) (r r1 : R) (x y z : Vector R)
    (dtPhi dtTheta : R) (n : Nat) (m : Mesh R) (i : Nat) :
    torusSliceStep M c r r1 x y z dtPhi dtTheta n m i =
      { m with
        vertices := m.vertices ++
          (List.range n).map (torusPoint M c r r1 x y z dtPhi dtTheta i)
        normals := m.normals ++ (List.range n).map (torusNormal M x y z dtPhi dtTheta i) } := by
  unfold torusSliceStep
  simp only
  rw [foldl_append_arrays _ (fun j => [torusPoint M c r r1 x y z dtPhi dtTheta i j])
    (fun j => [torusNormal M x y z dtPhi dtTheta i j]) (fun _ => []) (fun _ => [])
    (fun m j => by
      simp [torusVertexStep, pushVertex, pushNormal, torusPoint, torusNormal, torusU])]
  simp [flatMap_singleton_map]

theorem torusQuad_loop (n p j : Nat) (m : Mesh R) (k : Nat) :
    (List.range k).foldl (torusQuadStep n p j) m =
      { m with varray := m.varray ++ (List.range k).flatMap (torusCell n p j)
               narray := m.narray ++ (List.range k).flatMap (torusCell n p j) } := by
  rw [foldl_append_arrays _ (fun _ => []) (fun _ => []) (torusCell n p j) (torusCell n p j)
    (fun m i => by simp [torusQuadStep, AddSmoothQuadrangle, AddSmoothTriangle, torusCell])]
  simp

/-- The arrays of `Mesh(Torus, n, slice)` in closed form. -/
theorem ofTorus_eq (M : Mathematics R) (O : Vector R → Vector R × Vector R) (t : Torus R)
    (n slice : Nat) :
    ofTorus M O t n slice =
      { vertices := (List.range slice).flatMap (fun i => (List.range n).map
          (torusPoint M t.c t.r t.InnerRadius (O (Normalized M.sqrt t.n)).1
            (O (Normalized M.sqrt t.n)).2 (Normalized M.sqrt t.n)
            (M.TwoPi / (slice : R)) (M.TwoPi / (n : R)) i))
        normals := (List.range slice).flatMap (fun i => (List.range n).map
          (torusNormal M (O (Normalized M.sqrt t.n)).1
            (O (Normalized M.sqrt t.n)).2 (Normalized M.sqrt t.n)
            (M.TwoPi / (slice : R)) (M.TwoPi / (n : R)) i))
        varray := (List.range slice).flatMap (fun j => (List.range n).flatMap (torusCell n n j))
        narray := (List.range slice).flatMap (fun j => (List.range n).flatMap (torusCell n n j)) } := by
  unfold ofTorus
  simp only
  rw [foldl_append_arrays
    (torusSliceStep M t.c t.r t.InnerRadius (O (Normalized M.sqrt t.n)).1
      (O (Normalized M.sqrt t.n)).2 (Normalized M.sqrt t.n)
      (M.TwoPi / (slice : R)) (M.TwoPi / (n : R)) n)
    (fun i => (List.range n).map
      (torusPoint M t.c t.r t.InnerRadius (O (Normalized M.sqrt t.n)).1
        (O (Normalized M.sqrt t.n)).2 (Normalized M.sqrt t.n)
        (M.TwoPi / (slice : R)) (M.TwoPi / (n : R)) i))
    (fun i => (List.range n).map
      (torusNormal M (O (Normalized M.sqrt t.n)).1
        (O (Normalized M.sqrt t.n)).2 (Normalized M.sqrt t.n)
        (M.TwoPi / (slice : R)) (M.TwoPi / (n : R)) i))
    (fun _ => []) (fun _ => [])
    (fun m i => by rw [torusSliceStep_eq]; simp)]
  rw [foldl_append_arrays (fun m j => (List.range n).foldl (torusQuadStep n n j) m)
    (fun _ => []) (fun _ => [])
    (fun j => (List.range n).flatMap (torusCell n n j))
    (fun j => (List.range n).flatMap (torusCell n n j))
    (fun m j => by beta_reduce; rw [torusQuad_loop]; simp)]
  simp

end TorusLemmas
end Mesh

/-- C2 (the code at a failing input): for `n = 4` and `slice = 3` the torus has
`slice * n = 12` vertices and entry 49 of `vertexIndex` is `12`, which is not a
valid vertex index (the quadrangles of slice `j = 2` use `(j + 1) % n = 3` for
the next slice, where `(j + 1) % slice = 0` closes the ring); the Mesh invariants
fail. -/
theorem C2_torus_index_out_of_range {R : Type} [LinearOrderedField R] (M : Mathematics R)
    (O : Vector R → Vector R × Vector R) (t : Torus R) :
    (Mesh.ofTorus M O t 4 3).vertices.length = 12 ∧
    (Mesh.ofTorus M O t 4 3).varray[49]? = some 12 ∧
    ¬ (Mesh.ofTorus M O t 4 3).Inv := by
  have hv : (Mesh.ofTorus M O t 4 3).vertices.length = 12 := by
    rw [Mesh.ofTorus_eq]
    simp only
    rw [length_flatMap_const _ _ 4 (fun i _ => by simp), List.length_range]
  have ha : (Mesh.ofTorus M O t 4 3).varray[49]? = some 12 := by
    rw [Mesh.ofTorus_eq]
    simp only
    decide
  refine ⟨hv, ha, fun h => ?_⟩
  have hb := h.2.2.1 12 (List.mem_iff_getElem?.mpr ⟨49, ha⟩)
  omega

namespace Mesh
section InvariantLemmas

variable {R : Type} [LinearOrderedField R]

theorem ofSphere_inv (M : Mathematics R) (sphere : Sphere R) (n : Nat) (hn : 2 ≤ n) :
    (ofSphere M sphere n).Inv ∧ 0 < (ofSphere M sphere n).varray.length := by
  rw [ofSphere_eq]
  have hlen := sphere_bands_length n (2 * n + 1) n (le_refl n)
  refine ⟨⟨rfl, ?_, ?_, ?_⟩, ?_⟩
  · simp only
    rw [hlen]
    exact ⟨2 * n * ((n - 1) + min n (n - 1)), by ring⟩
  · intro k hk
    simp only at hk ⊢
    rw [length_flatMap_const _ _ (2 * n + 1) (fun i _ => by simp), List.length_range]
    obtain ⟨i, hi, hk⟩ := List.mem_flatMap.mp hk
    obtain ⟨j, hj, hk⟩ := List.mem_flatMap.mp hk
    exact sphere_index_bound n i j k (List.mem_range.mp hi) (List.mem_range.mp hj) hk
  · intro k hk
    simp only at hk ⊢
    rw [length_flatMap_const _ _ (2 * n + 1) (fun i _ => by simp), List.length_range]
    obtain ⟨i, hi, hk⟩ := List.mem_flatMap.mp hk
    obtain ⟨j, hj, hk⟩ := List.mem_flatMap.mp hk
    exact sphere_index_bound n i j k (List.mem_range.mp hi) (List.mem_range.mp hj) hk
  · simp only
    rw [hlen]
    have h1 : 0 < (n - 1) + min n (n - 1) := by omega
    positivity

theorem ofDisc_inv (M : Mathematics R) (O : Vector R → Vector R × Vector R) (d : Disc R)
    (n : Nat) (hn : 1 ≤ n) :
    (ofDisc M O d n).Inv ∧ 0 < (ofDisc M O d n).varray.length := by
  rw [ofDisc_eq]
  have hv : ((List.range n).flatMap (fanCell n 0)).length = n * 3 := by
    rw [length_flatMap_const _ _ 3 (fun i _ => by simp [fanCell]), List.length_range]
  have hn' : ((List.range n).flatMap (fun _ => [0, 0, 0])).length = n * 3 := by
    rw [length_flatMap_const _ _ 3 (fun i _ => by simp), List.length_range]
  refine ⟨⟨?_, ?_, ?_, ?_⟩, ?_⟩
  · simp only
    rw [hv, hn']
  · simp only
    rw [hv]
    exact ⟨n, by ring⟩
  · intro k hk
    simp only at hk ⊢
    obtain ⟨i, hi, hk⟩ := List.mem_flatMap.mp hk
    have hi' := List.mem_range.mp hi
    have hmod : (i + 1) % n < n := Nat.mod_lt _ (by omega)
    simp [fanCell] at hk ⊢
    omega
  · intro k hk
    simp only at hk ⊢
    obtain ⟨i, _, hk⟩ := List.mem_flatMap.mp hk
    simp at hk ⊢
    omega
  · simp only
    rw [hv]
    omega

theorem ofCylinder_inv (M : Mathematics R) (O : Vector R → Vector R × Vector R)
    (c : Cylinder R) (n : Nat) (hn : 1 ≤ n) :
    (ofCylinder M O c n).Inv ∧ 0 < (ofCylinder M O c n).varray.length := by
  have hvl := ofCylinder_vertices_length M O c n
  rw [ofCylinder_eq] at hvl ⊢
  simp only at hvl
  have hfan : ∀ o, ((List.range n).flatMap (fanCell n o)).length = n * 3 := fun o => by
    rw [length_flatMap_const _ _ 3 (fun i _ => by simp [fanCell]), List.length_range]
  have hside : ((List.range n).flatMap (sideCell n (n + 1))).length = n * 6 := by
    rw [length_flatMap_const _ _ 6 (fun i _ => by simp [sideCell]), List.length_range]
  have hzero : ((List.range n).flatMap (fun _ => [0, 0, 0])).length = n * 3 := by
    rw [length_flatMap_const _ _ 3 (fun i _ => by simp), List.length_range]
  have hrep : ((List.range n).flatMap (fun i => List.replicate 6 (2 + i))).length = n * 6 := by
    rw [length_flatMap_const _ _ 6 (fun i _ => by simp), List.length_range]
  refine ⟨⟨?_, ?_, ?_, ?_⟩, ?_⟩
  · simp only [List.length_append]
    rw [hfan, hfan, hside, hzero, hrep]
  · simp only [List.length_append]
    rw [hfan, hfan, hside]
    exact ⟨4 * n, by ring⟩
  · intro k hk
    simp only at hk ⊢
    rw [hvl]
    simp only [List.mem_append] at hk
    rcases hk with (hk | hk) | hk
    · obtain ⟨i, hi, hk⟩ := List.mem_flatMap.mp hk
      have hi' := List.mem_range.mp hi
      have hmod : (i + 1) % n < n := Nat.mod_lt _ (by omega)
      simp [fanCell] at hk
      omega
    · obtain ⟨i, hi, hk⟩ := List.mem_flatMap.mp hk
      have hi' := List.mem_range.mp hi
      have hmod : (i + 1) % n < n := Nat.mod_lt _ (by omega)
      simp [fanCell] at hk
      omega
    · obtain ⟨i, hi, hk⟩ := List.mem_flatMap.mp hk
      have hi' := List.mem_range.mp hi
      have hmod : (i + 1) % n < n := Nat.mod_lt _ (by omega)
      simp [sideCell] at hk
      omega
  · intro k hk
    simp only [List.mem_append] at hk
    simp only [List.length_append, List.length_map, List.length_range, List.length_cons,
      List.length_nil]
    rcases hk with (hk | hk) | hk
    · obtain ⟨i, _, hk⟩ := List.mem_flatMap.mp hk
      simp at hk
      omega
    · obtain ⟨i, _, hk⟩ := List.mem_flatMap.mp hk
      simp at hk
      omega
    · obtain ⟨i, hi, hk⟩ := List.mem_flatMap.mp hk
      have hi' := List.mem_range.mp hi
      have := List.eq_of_mem_replicate hk
      omega
  · simp only [List.length_append]
    rw [hfan, hfan, hside]
    omega

end InvariantLemmas
end Mesh

/-- C1: for every resolution `n ≥ 3` the meshes `Mesh(Sphere, n)`, `Mesh(Disc, n)`
and `Mesh(Cylinder, n)` satisfy the Mesh invariants (index arrays of equal length,
a multiple of 3, every vertex index below the number of vertices and every normal
index below the number of normals), and their index arrays are not empty. -/
theorem C1_generators_invariants {R : Type} [LinearOrderedField R] (M : Mathematics R)
    (O : Vector R → Vector R × Vector R) (sphere : Sphere R) (d : Disc R) (c : Cylinder R)
    (n : Nat) (hn : 3 ≤ n) :
    ((Mesh.ofSphere M sphere n).Inv ∧ 0 < (Mesh.ofSphere M sphere n).varray.length) ∧
    ((Mesh.ofDisc M O d n).Inv ∧ 0 < (Mesh.ofDisc M O d n).varray.length) ∧
    ((Mesh.ofCylinder M O c n).Inv ∧ 0 < (Mesh.ofCylinder M O c n).varray.length) :=
  ⟨Mesh.ofSphere_inv M sphere n (by omega), Mesh.ofDisc_inv M O d n (by omega),
    Mesh.ofCylinder_inv M O c n (by omega)⟩


/-- C1 at `n = 3` over the reals, for the unit sphere, a unit disc and a unit
cylinder along the third axis. -/
theorem C1_generators_invariants_witness :
    3 ≤ 3 ∧
    ((Mesh.ofSphere (⟨Real.sqrt, Real.cos, Real.sin, Real.pi, 2 * Real.pi⟩ : Mathematics ℝ)
        ⟨⟨0, 0, 0⟩, 1⟩ 3).Inv ∧
     (Mesh.ofDisc (⟨Real.sqrt, Real.cos, Real.sin, Real.pi, 2 * Real.pi⟩ : Mathematics ℝ)
        (fun _ => (⟨1, 0, 0⟩, ⟨0, 1, 0⟩)) ⟨⟨0, 0, 0⟩, ⟨0, 0, 1⟩, 1⟩ 3).Inv ∧
     (Mesh.ofCylinder (⟨Real.sqrt, Real.cos, Real.sin, Real.pi, 2 * Real.pi⟩ : Mathematics ℝ)
        (fun _ => (⟨1, 0, 0⟩, ⟨0, 1, 0⟩)) ⟨⟨0, 0, 0⟩, ⟨0, 0, 1⟩, 1⟩ 3).Inv) := by
  have h := C1_generators_invariants
    (⟨Real.sqrt, Real.cos, Real.sin, Real.pi, 2 * Real.pi⟩ : Mathematics ℝ)
    (fun _ => (⟨1, 0, 0⟩, ⟨0, 1, 0⟩)) ⟨⟨0, 0, 0⟩, 1⟩ ⟨⟨0, 0, 0⟩, ⟨0, 0, 1⟩, 1⟩
    ⟨⟨0, 0, 0⟩, ⟨0, 0, 1⟩, 1⟩ 3 (le_refl 3)
  exact ⟨le_refl 3, h.1.1, h.2.1.1, h.2.2.1⟩

/-- C6 (what the code computes): the vertex of `Mesh(Sphere, n)` at row `i ≤ n` and
column `j ≤ 2n` is `r * (cos(s)cos(t), cos(s)sin(t), sin(s))` with
`s = Pi/2 - i * (Pi/n)` and `t = j * (2 Pi / (2n))`: the center `c` of the sphere
is not added. -/
theorem C6_sphere_vertex_without_center {R : Type} [LinearOrderedField R]
    (M : Mathematics R) (c : Vector R) (r : R) (n i j : Nat) (hi : i ≤ n) (hj : j ≤ 2 * n) :
    (Mesh.ofSphere M ⟨c, r⟩ n).vertices[i * (2 * n + 1) + j]? =
      some ⟨r * M.cos (M.Pi / 2 - (i : R) * (M.Pi / (n : R))) *
              M.cos ((j : R) * (2 * M.Pi / ((2 * n : Nat) : R))),
            r * M.cos (M.Pi / 2 - (i : R) * (M.Pi / (n : R))) *
              M.sin ((j : R) * (2 * M.Pi / ((2 * n : Nat) : R))),
            r * M.sin (M.Pi / 2 - (i : R) * (M.Pi / (n : R)))⟩ := by
  rw [Mesh.ofSphere_eq]
  simp only
  rw [getElem?_flatMap_range _ (2 * n + 1) (n + 1) i j (fun a _ => by simp) (by omega)
    (by omega)]
  rw [List.getElem?_map, List.getElem?_range (by omega)]
  rfl

/-- C6 at the unit sphere centred at `(1, 0, 0)` with `n = 1`: vertex `0` is
`(0, 0, 1)`, and not `(1, 0, 1)`, the point at distance `1` above the center. -/
theorem C6_sphere_vertex_without_center_witness :
    (Mesh.ofSphere (⟨Real.sqrt, Real.cos, Real.sin, Real.pi, 2 * Real.pi⟩ : Mathematics ℝ)
      ⟨⟨1, 0, 0⟩, 1⟩ 1).vertices[0]? = some ⟨0, 0, 1⟩ ∧
    (⟨0, 0, 1⟩ : Vector ℝ) ≠ (⟨1, 0, 0⟩ : Vector ℝ) + ⟨0, 0, 1⟩ := by
  have h := C6_sphere_vertex_without_center
    (⟨Real.sqrt, Real.cos, Real.sin, Real.pi, 2 * Real.pi⟩ : Mathematics ℝ)
    ⟨1, 0, 0⟩ 1 1 0 0 (by decide) (by decide)
  constructor
  · simpa using h
  · rw [Vector.add_def]
    intro hEq
    have hx := congrArg Vector.x hEq
    norm_num at hx

namespace Mesh
section CapLemmas

variable {R : Type} [LinearOrderedField R]

/-- The normal indices of the two caps of the cylinder: the first `6 n` entries of
`narray` are all `0`. -/
theorem ofCylinder_cap_narray (M : Mathematics R) (O : Vector R → Vector R × Vector R)
    (c : Cylinder R) (n p : Nat) (hp : p < 6 * n) :
    (ofCylinder M O c n).narray[p]? = some 0 := by
  rw [ofCylinder_eq]
  simp only
  have hzero : ((List.range n).flatMap (fun _ => [0, 0, 0])).length = n * 3 := by
    rw [length_flatMap_const _ _ 3 (fun i _ => by simp), List.length_range]
  have hlt : p < ((List.range n).flatMap (fun _ => [0, 0, 0]) ++
      (List.range n).flatMap (fun _ => [0, 0, 0])).length := by
    rw [List.length_append, hzero]; omega
  rw [List.getElem?_append_left hlt, List.getElem?_eq_getElem hlt]
  have hmem := List.getElem_mem hlt
  rw [List.mem_append] at hmem
  have h0 : ((List.range n).flatMap (fun _ => [0, 0, 0]) ++
      (List.range n).flatMap (fun _ => [0, 0, 0]))[p] = 0 := by
    rcases hmem with hmem | hmem
    · obtain ⟨i, _, hk⟩ := List.mem_flatMap.mp hmem
      simpa using hk
    · obtain ⟨i, _, hk⟩ := List.mem_flatMap.mp hmem
      simpa using hk
  rw [h0]

/-- The first two normals of the cylinder: `-z` for the cap at `a`, then `z`. -/
theorem ofCylinder_cap_normals (M : Mathematics R) (O : Vector R → Vector R × Vector R)
    (c : Cylinder R) (n : Nat) :
    (ofCylinder M O c n).normals[0]? = some (-(Normalized M.sqrt (c.b - c.a))) ∧
    (ofCylinder M O c n).normals[1]? = some (Normalized M.sqrt (c.b - c.a)) := by
  rw [ofCylinder_eq]
  simp

end CapLemmas
end Mesh

/-- C5 (what the code computes): in `Mesh(Cylinder, n)` corner `k` of triangle `i`
of the cap at `a` (entry `3 i + k` of `normalIndex`) and corner `k` of triangle
`i` of the cap at `b` (entry `3 n + 3 i + k`) both carry the normal index `0`,
and normal `0` is `-z` for the axis direction `z = Normalized(b - a)`; the
normal `z`, stored at index `1`, is the one no cap triangle references. Both caps
reference the same normal, not opposite ones. -/
theorem C5_cylinder_caps_same_normal {R : Type} [LinearOrderedField R] (M : Mathematics R)
    (O : Vector R → Vector R × Vector R) (c : Cylinder R) (n i k : Nat)
    (hi : i < n) (hk : k < 3) :
    (Mesh.ofCylinder M O c n).narray[3 * i + k]? = some 0 ∧
    (Mesh.ofCylinder M O c n).narray[3 * n + 3 * i + k]? = some 0 ∧
    (Mesh.ofCylinder M O c n).normals[0]? = some (-(Normalized M.sqrt (c.b - c.a))) ∧
    (Mesh.ofCylinder M O c n).normals[1]? = some (Normalized M.sqrt (c.b - c.a)) :=
  ⟨Mesh.ofCylinder_cap_narray M O c n _ (by omega),
   Mesh.ofCylinder_cap_narray M O c n _ (by omega),
   Mesh.ofCylinder_cap_normals M O c n⟩

/-- C5 at the cylinder from `(0,0,0)` to `(0,0,1)` of radius `1` with `n = 3`: the
first triangle of each cap references normal `0`, which is `(0,0,-1)`, and this
normal is not its own negation. -/
theorem C5_cylinder_caps_same_normal_witness :
    (Mesh.ofCylinder (⟨Real.sqrt, Real.cos, Real.sin, Real.pi, 2 * Real.pi⟩ : Mathematics ℝ)
      (fun _ => (⟨1, 0, 0⟩, ⟨0, 1, 0⟩)) ⟨⟨0, 0, 0⟩, ⟨0, 0, 1⟩, 1⟩ 3).narray[0]? = some 0 ∧
    (Mesh.ofCylinder (⟨Real.sqrt, Real.cos, Real.sin, Real.pi, 2 * Real.pi⟩ : Mathematics ℝ)
      (fun _ => (⟨1, 0, 0⟩, ⟨0, 1, 0⟩)) ⟨⟨0, 0, 0⟩, ⟨0, 0, 1⟩, 1⟩ 3).narray[9]? = some 0 ∧
    (Mesh.ofCylinder (⟨Real.sqrt, Real.cos, Real.sin, Real.pi, 2 * Real.pi⟩ : Mathematics ℝ)
      (fun _ => (⟨1, 0, 0⟩, ⟨0, 1, 0⟩)) ⟨⟨0, 0, 0⟩, ⟨0, 0, 1⟩, 1⟩ 3).normals[0]? =
        some ⟨0, 0, -1⟩ ∧
    (⟨0, 0, -1⟩ : Vector ℝ) ≠ -(⟨0, 0, -1⟩ : Vector ℝ) := by
  have h := C5_cylinder_caps_same_normal
    (⟨Real.sqrt, Real.cos, Real.sin, Real.pi, 2 * Real.pi⟩ : Mathematics ℝ)
    (fun _ => (⟨1, 0, 0⟩, ⟨0, 1, 0⟩)) ⟨⟨0, 0, 0⟩, ⟨0, 0, 1⟩, 1⟩ 3 0 0 (by decide) (by decide)
  refine ⟨h.1, h.2.1, ?_, ?_⟩
  · rw [h.2.2.1]
    simp [Normalized, Norm, Vector.dot, Vector.sub_def, Vector.scale_def, Vector.neg_def]
  · rw [Vector.neg_def]
    intro hEq
    have hz := congrArg Vector.z hEq
    norm_num at hz

namespace Mesh
section ScaleMatrixLemmas

variable {R : Type} [LinearOrderedField R]

/-- An iteration of the loop of `Scale(Matrix3)` that succeeds keeps the lengths of
both arrays. -/
theorem scaleStep_lengths (sqrt : R → R) (mat mit : Matrix3 R) (m m' : Mesh R) (i : Nat)
    (h : scaleStep sqrt mat mit m i = some m') :
    m'.vertices.length = m.vertices.length ∧ m'.normals.length = m.normals.length := by
  unfold scaleStep at h
  cases hv : m.vertices[i]? with
  | none => simp [hv] at h
  | some v =>
    cases hn : m.normals[i]? with
    | none => simp [hv, hn] at h
    | some nn =>
      simp [hv, hn] at h
      subst h
      simp

/-- The iteration `i` of the loop of `Scale(Matrix3)` reads `normals[i]`: it fails
when the mesh has no more than `i` normals. -/
theorem scaleStep_none (sqrt : R → R) (mat mit : Matrix3 R) (m : Mesh R) (i : Nat)
    (h : m.normals.length ≤ i) : scaleStep sqrt mat mit m i = none := by
  unfold scaleStep
  cases hv : m.vertices[i]? with
  | none => simp
  | some v => simp [List.getElem?_eq_none h]

/-- A loop that reaches an index `k` with no normal fails. -/
theorem scale_loop_none (sqrt : R → R) (mat mit : Matrix3 R) (l : List Nat) (k : Nat)
    (hk : k ∈ l) : ∀ m : Mesh R, m.normals.length ≤ k →
      l.foldlM (scaleStep sqrt mat mit) m = none := by
  induction l with
  | nil => simp at hk
  | cons a t ih =>
    intro m hm
    rw [List.foldlM_cons]
    cases hstep : scaleStep sqrt mat mit m a with
    | none => rfl
    | some m' =>
      have hlen := scaleStep_lengths sqrt mat mit m m' a hstep
      rcases List.mem_cons.mp hk with rfl | hkt
      · rw [scaleStep_none sqrt mat mit m k hm] at hstep
        cases hstep
      · exact ih hkt m' (by omega)

/-- `Scale(Matrix3)` on a mesh with fewer normals than vertices reads `normals`
outside its range. -/
theorem ScaleMatrix_none_of_lt (sqrt : R → R) (m : Mesh R) (mat : Matrix3 R)
    (h : m.normals.length < m.vertices.length) : ScaleMatrix sqrt m mat = none := by
  unfold ScaleMatrix
  cases mat.Inverse with
  | none => rfl
  | some inv =>
    exact scale_loop_none sqrt mat inv.Transpose _ m.normals.length
      (List.mem_range.mpr h) m (le_refl _)

end ScaleMatrixLemmas
end Mesh

theorem ofBox_normals_length {R : Type} [LinearOrderedField R] (box : Box R) :
    (Mesh.ofBox box).normals.length = 6 := rfl

/-- `Mesh(Box)` satisfies the Mesh invariants. -/
theorem ofBox_inv {R : Type} [LinearOrderedField R] (box : Box R) : (Mesh.ofBox box).Inv := by
  refine ⟨?_, ?_, ?_, ?_⟩
  · rw [ofBox_varray, ofBox_narray]; rfl
  · rw [ofBox_varray]; decide
  · rw [ofBox_varray, ofBox_vertices_length]; decide
  · rw [ofBox_narray, ofBox_normals_length]; decide

/-- C4 (the code at a failing input): on `Mesh(Box)`, which has 8 vertices and 6
normals and satisfies the Mesh invariants, `Scale(Matrix3::Scaling(1, 2, 3))`
reads `normals[6]`, outside the array: the operation has no result. -/
theorem C4_scale_matrix_box_out_of_range {R : Type} [LinearOrderedField R] (sqrt : R → R)
    (box : Box R) :
    (Mesh.ofBox box).Inv ∧ (Matrix3.Scaling (⟨1, 2, 3⟩ : Vector R)).Inverse =
        some (⟨1 / 1, 0, 0, 0, 1 / 2, 0, 0, 0, 1 / 3⟩ : Matrix3 R) ∧
      Mesh.ScaleMatrix sqrt (Mesh.ofBox box) (Matrix3.Scaling ⟨1, 2, 3⟩) = none := by
  refine ⟨ofBox_inv box, ?_, ?_⟩
  · simp [Matrix3.Scaling, Matrix3.Inverse]
  · exact Mesh.ScaleMatrix_none_of_lt sqrt _ _
      (by rw [ofBox_normals_length, ofBox_vertices_length]; decide)


/-- C3 (the code at a failing input): a mesh of one triangle `(0,0,0), (1,0,0),
(0,1,0)` whose three corners reference the single unit normal `(1,0,0)` satisfies
the Mesh invariants. `SmoothNormals` keeps the stored normal `(1,0,0)` as the
start of the accumulation for vertex `0` (the resize only fills the positions
`1` and `2` with zero vectors), so the normal of vertex `0` is the normalisation
of `(1,0,0) + (0,0,1)` and not the normalisation of the area normal `(0,0,1)` of
the only triangle at that vertex. -/
theorem C3_smooth_normals_starts_from_old_normals :
    (Mesh.ofArrays [⟨0, 0, 0⟩, ⟨1, 0, 0⟩, ⟨0, 1, 0⟩] [⟨1, 0, 0⟩] [0, 1, 2] [0, 0, 0] :
      Mesh ℝ).Inv ∧
    (Mesh.SmoothNormals Real.sqrt
      (Mesh.ofArrays [⟨0, 0, 0⟩, ⟨1, 0, 0⟩, ⟨0, 1, 0⟩] [⟨1, 0, 0⟩] [0, 1, 2] [0, 0, 0] :
        Mesh ℝ)).map (fun m => m.normals) =
      some [Normalized Real.sqrt ⟨1, 0, 1⟩, Normalized Real.sqrt ⟨0, 0, 1⟩,
        Normalized Real.sqrt ⟨0, 0, 1⟩] ∧
    AreaNormal (⟨0, 0, 0⟩ : Vector ℝ) ⟨1, 0, 0⟩ ⟨0, 1, 0⟩ = ⟨0, 0, 1⟩ ∧
    Normalized Real.sqrt (⟨1, 0, 1⟩ : Vector ℝ) ≠ Normalized Real.sqrt ⟨0, 0, 1⟩ := by
  have harea : AreaNormal (⟨0, 0, 0⟩ : Vector ℝ) ⟨1, 0, 0⟩ ⟨0, 1, 0⟩ = ⟨0, 0, 1⟩ := by
    simp [AreaNormal, Vector.cross, Vector.sub_def]
  refine ⟨⟨rfl, by decide, by decide, by decide⟩, ?_, harea, ?_⟩
  · simp [Mesh.SmoothNormals, Mesh.ofArrays, Mesh.resize, Mesh.smoothStep, Mesh.addAt,
      harea, Vector.add_def, Vector.Null, List.range_succ]
  · intro hEq
    have hx := congrArg Vector.x hEq
    simp [Normalized, Norm, Vector.dot, Vector.scale_def] at hx


section MatrixLemmas

variable {R : Type} [LinearOrderedField R]

theorem Matrix3.mul_def (u v : Matrix3 R) : u * v = Matrix3.mul u v := rfl

theorem Matrix3.apply_def (m : Matrix3 R) (x : Vector R) : m * x = Matrix3.apply m x := rfl

/-- Applying a product is applying the factors one after the other. -/
theorem Matrix3.mul_apply (u v : Matrix3 R) (x : Vector R) : (u * v) * x = u * (v * x) := by
  simp only [Matrix3.mul_def, Matrix3.apply_def, Matrix3.mul, Matrix3.apply]
  congr 1 <;> ring

end MatrixLemmas

namespace Mesh

section RotateLemmas

variable {R : Type} [LinearOrderedField R]

/-- `Rotate` replaces both arrays by their images under the matrix. -/
theorem Rotate_eq (m : Mesh R) (mat : Matrix3 R) :
    m.Rotate mat = { m with vertices := m.vertices.map (fun (v : Vector R) => mat * v)
                            normals := m.normals.map (fun (n : Vector R) => mat * n) } := by
  unfold Rotate
  simp only
  rw [vertices_loop (fun (v : Vector R) => mat * v) m]
  exact normals_loop (fun (n : Vector R) => mat * n) _

end RotateLemmas

end Mesh

/-- C11 (counterexample): read row-major, the claimed entry `(0,0)` of the product
of `u` (only `u[1] = 1`) by `v` (only `v[3] = 1`) is
`u[0] v[0] + u[1] v[3] + u[2] v[6] = 1`, while the code stores
`u[0] v[0] + u[3] v[1] + u[6] v[2] = 0` at index `0`. -/
theorem C11_row_major_product_fails :
    ((⟨0, 1, 0, 0, 0, 0, 0, 0, 0⟩ : Matrix3 ℚ) * (⟨0, 0, 0, 1, 0, 0, 0, 0, 0⟩ : Matrix3 ℚ)).get
        (3 * 0 + 0) ≠
      (⟨0, 1, 0, 0, 0, 0, 0, 0, 0⟩ : Matrix3 ℚ).get (3 * 0 + 0) *
          (⟨0, 0, 0, 1, 0, 0, 0, 0, 0⟩ : Matrix3 ℚ).get (0 + 0) +
        (⟨0, 1, 0, 0, 0, 0, 0, 0, 0⟩ : Matrix3 ℚ).get (3 * 0 + 1) *
          (⟨0, 0, 0, 1, 0, 0, 0, 0, 0⟩ : Matrix3 ℚ).get (3 + 0) +
        (⟨0, 1, 0, 0, 0, 0, 0, 0, 0⟩ : Matrix3 ℚ).get (3 * 0 + 2) *
          (⟨0, 0, 0, 1, 0, 0, 0, 0, 0⟩ : Matrix3 ℚ).get (6 + 0) := by
  simp [Matrix3.mul_def, Matrix3.mul, Matrix3.get]

/-- C11 (amended): `operator*(u, v)` is the standard product of `u` by `v` when the
nine stored entries are read column-major (entry `(i, j)` stored at index
`i + 3 j`): `(u*v)[i+3j] = u[i] v[3j] + u[i+3] v[3j+1] + u[i+6] v[3j+2]`. -/
theorem C11_column_major_product {R : Type} [LinearOrderedField R] (u v : Matrix3 R)
    (i j : Nat) (hi : i < 3) (hj : j < 3) :
    (u * v).get (i + 3 * j) =
      u.get i * v.get (3 * j) + u.get (i + 3) * v.get (3 * j + 1) +
        u.get (i + 6) * v.get (3 * j + 2) := by
  interval_cases i <;> interval_cases j <;> rfl

/-- C11 (amended) at `i = 1`, `j = 2` for two rational matrices. -/
theorem C11_column_major_product_witness :
    ((⟨1, 2, 3, 4, 5, 6, 7, 8, 9⟩ : Matrix3 ℚ) * (⟨0, 0, 0, 0, 0, 0, 1, 2, 3⟩ : Matrix3 ℚ)).get 7 =
      2 * 1 + 5 * 2 + 8 * 3 := by
  have h := C11_column_major_product (⟨1, 2, 3, 4, 5, 6, 7, 8, 9⟩ : Matrix3 ℚ)
    (⟨0, 0, 0, 0, 0, 0, 1, 2, 3⟩ : Matrix3 ℚ) 1 2 (by decide) (by decide)
  simpa [Matrix3.get] using h

/-- C12: on a diagonal matrix with non-zero diagonal entries `Inverse()` passes its
assertions and returns a matrix that is the inverse on both sides; on a matrix
with a non-zero entry off the diagonal an assertion fails. -/
theorem C12_inverse_diagonal {R : Type} [LinearOrderedField R] (m : Matrix3 R) :
    (m.r1 = 0 ∧ m.r2 = 0 ∧ m.r3 = 0 ∧ m.r5 = 0 ∧ m.r6 = 0 ∧ m.r7 = 0 →
      m.r0 ≠ 0 → m.r4 ≠ 0 → m.r8 ≠ 0 →
      ∃ inv, m.Inverse = some inv ∧ m * inv = Matrix3.Identity ∧
        inv * m = Matrix3.Identity) ∧
    (¬ (m.r1 = 0 ∧ m.r2 = 0 ∧ m.r3 = 0 ∧ m.r5 = 0 ∧ m.r6 = 0 ∧ m.r7 = 0) →
      m.Inverse = none) := by
  constructor
  · intro hd h0 h4 h8
    refine ⟨{ m with r0 := 1 / m.r0, r4 := 1 / m.r4, r8 := 1 / m.r8 }, ?_, ?_, ?_⟩
    · unfold Matrix3.Inverse
      rw [if_pos hd]
    · obtain ⟨h1, h2, h3, h5, h6, h7⟩ := hd
      simp only [Matrix3.mul_def, Matrix3.mul, Matrix3.Identity, h1, h2, h3, h5, h6, h7]
      congr 1 <;> field_simp
    · obtain ⟨h1, h2, h3, h5, h6, h7⟩ := hd
      simp only [Matrix3.mul_def, Matrix3.mul, Matrix3.Identity, h1, h2, h3, h5, h6, h7]
      congr 1 <;> field_simp
  · intro hd
    unfold Matrix3.Inverse
    rw [if_neg hd]

/-- C12 at `Scaling(1, 2, 3)` and at a matrix with `r[1] = 1`. -/
theorem C12_inverse_diagonal_witness :
    (∃ inv, (Matrix3.Scaling (⟨1, 2, 3⟩ : Vector ℚ)).Inverse = some inv ∧
      Matrix3.Scaling (⟨1, 2, 3⟩ : Vector ℚ) * inv = Matrix3.Identity ∧
      inv * Matrix3.Scaling (⟨1, 2, 3⟩ : Vector ℚ) = Matrix3.Identity) ∧
    (⟨1, 1, 0, 0, 1, 0, 0, 0, 1⟩ : Matrix3 ℚ).Inverse = none :=
  ⟨(C12_inverse_diagonal (Matrix3.Scaling (⟨1, 2, 3⟩ : Vector ℚ))).1
      (by simp [Matrix3.Scaling]) (by simp [Matrix3.Scaling]) (by simp [Matrix3.Scaling])
      (by simp [Matrix3.Scaling]),
    (C12_inverse_diagonal (⟨1, 1, 0, 0, 1, 0, 0, 0, 1⟩ : Matrix3 ℚ)).2 (by simp)⟩

/-- C20: applying the product `u * v` to a vector is applying `v` and then `u`, and
`Rotate(v)` followed by `Rotate(u)` is `Rotate(u * v)`. -/
theorem C20_rotate_compose {R : Type} [LinearOrderedField R] (u v : Matrix3 R) :
    (∀ x : Vector R, (u * v) * x = u * (v * x)) ∧
    (∀ m : Mesh R, (m.Rotate v).Rotate u = m.Rotate (u * v)) := by
  refine ⟨Matrix3.mul_apply u v, fun m => ?_⟩
  rw [Mesh.Rotate_eq, Mesh.Rotate_eq, Mesh.Rotate_eq]
  simp only [List.map_map]
  congr 1 <;>
    exact List.map_congr_left (fun x _ => (Matrix3.mul_apply u v x).symm)


section OptionLoops

/-- A loop whose body may fail: when every iteration `j < n` succeeds from a state
that satisfies the invariant and re-establishes it, the loop succeeds and the
invariant holds at exit. -/
theorem foldlM_range_some {σ : Type} (P : Nat → σ → Prop) (f : σ → Nat → Option σ) (init : σ)
    (n : Nat) (h0 : P 0 init)
    (hstep : ∀ j s, j < n → P j s → ∃ s', f s j = some s' ∧ P (j + 1) s') :
    ∃ s, (List.range n).foldlM f init = some s ∧ P n s := by
  induction n with
  | zero => exact ⟨init, by simp, h0⟩
  | succ k ih =>
    obtain ⟨s, hs, hP⟩ := ih fun j s hj => hstep j s (Nat.lt_succ_of_lt hj)
    obtain ⟨s', hs', hP'⟩ := hstep k s (Nat.lt_succ_self k) hP
    refine ⟨s', ?_, hP'⟩
    rw [List.range_succ, List.foldlM_append, hs]
    simpa using hs'

/-- A loop whose body may fail: an invariant that every successful iteration
carries on holds for the result, when there is one. -/
theorem foldlM_range_inv {σ : Type} (P : Nat → σ → Prop) (f : σ → Nat → Option σ) (init : σ)
    (n : Nat) (h0 : P 0 init)
    (hstep : ∀ j s s', j < n → P j s → f s j = some s' → P (j + 1) s') :
    ∀ s, (List.range n).foldlM f init = some s → P n s := by
  induction n with
  | zero =>
    intro s hs
    simp at hs
    subst hs
    exact h0
  | succ k ih =>
    intro s hs
    rw [List.range_succ, List.foldlM_append] at hs
    cases hmid : (List.range k).foldlM f init with
    | none => rw [hmid] at hs; simp at hs
    | some s0 =>
      rw [hmid] at hs
      have hP := ih (fun j s s' hj => hstep j s s' (Nat.lt_succ_of_lt hj)) s0 hmid
      simp at hs
      exact hstep k s0 s (Nat.lt_succ_self k) hP hs

end OptionLoops

namespace Mesh

section SmoothLemmas

variable {R : Type} [LinearOrderedField R]

theorem length_resize {α : Type} (l : List α) (n : Nat) (v : α) : (resize l n v).length = n := by
  unfold resize
  rw [List.length_append, List.length_take, List.length_replicate]
  omega

theorem addAt_length (l l' : List (Vector R)) (k : Nat) (tn : Vector R)
    (h : addAt l k tn = some l') : l'.length = l.length := by
  unfold addAt at h
  cases hk : l[k]? with
  | none => simp [hk] at h
  | some old =>
    simp [hk] at h
    subst h
    simp

theorem addAt_some (l : List (Vector R)) (k : Nat) (tn : Vector R) (h : k < l.length) :
    ∃ l', addAt l k tn = some l' ∧ l'.length = l.length := by
  refine ⟨l.set k (l[k] + tn), ?_, by simp⟩
  unfold addAt
  rw [List.getElem?_eq_getElem h]
  rfl

/-- A successful iteration of the accumulation loop changes the normals only, and
not their number. -/
theorem smoothStep_frame (m m' : Mesh R) (t : Nat) (h : smoothStep m t = some m') :
    m'.vertices = m.vertices ∧ m'.varray = m.varray ∧ m'.narray = m.narray ∧
      m'.normals.length = m.normals.length := by
  unfold smoothStep at h
  simp only [Option.bind_eq_bind, Option.bind_eq_some, Option.pure_def, Option.some.injEq] at h
  obtain ⟨ia, -, ib, -, ic, -, a, -, b, -, c, -, na, -, n1, h1, nb, -, n2, h2, nc, -, n3, h3,
    rfl⟩ := h
  refine ⟨rfl, rfl, rfl, ?_⟩
  simp only
  rw [addAt_length _ _ _ _ h3, addAt_length _ _ _ _ h2, addAt_length _ _ _ _ h1]

/-- The iteration for triangle `t` succeeds when its three corners exist, the
indices are valid and there is a normal for every vertex. -/
theorem smoothStep_some (m : Mesh R) (t : Nat) (hna : m.narray = m.varray)
    (ht : 3 * t + 2 < m.varray.length) (hv : ∀ k ∈ m.varray, k < m.vertices.length)
    (hn : m.normals.length = m.vertices.length) : ∃ m', smoothStep m t = some m' := by
  have h0 : 3 * t < m.varray.length := by omega
  have h1 : 3 * t + 1 < m.varray.length := by omega
  have ha := hv _ (List.getElem_mem h0)
  have hb := hv _ (List.getElem_mem h1)
  have hc := hv _ (List.getElem_mem ht)
  obtain ⟨n1, e1, l1⟩ := addAt_some m.normals m.varray[3 * t]
    (AreaNormal m.vertices[m.varray[3 * t]] m.vertices[m.varray[3 * t + 1]]
      m.vertices[m.varray[3 * t + 2]]) (by omega)
  obtain ⟨n2, e2, l2⟩ := addAt_some n1 m.varray[3 * t + 1]
    (AreaNormal m.vertices[m.varray[3 * t]] m.vertices[m.varray[3 * t + 1]]
      m.vertices[m.varray[3 * t + 2]]) (by omega)
  obtain ⟨n3, e3, l3⟩ := addAt_some n2 m.varray[3 * t + 2]
    (AreaNormal m.vertices[m.varray[3 * t]] m.vertices[m.varray[3 * t + 1]]
      m.vertices[m.varray[3 * t + 2]]) (by omega)
  refine ⟨{ m with normals := n3 }, ?_⟩
  unfold smoothStep
  simp only [hna, Nat.add_zero, List.getElem?_eq_getElem h0, List.getElem?_eq_getElem h1,
    List.getElem?_eq_getElem ht, List.getElem?_eq_getElem ha, List.getElem?_eq_getElem hb,
    List.getElem?_eq_getElem hc, Option.bind_eq_bind, Option.some_bind, e1, e2, e3,
    Option.pure_def]

/-- The loop of `SmoothNormals` keeps the vertices and both index arrays, and the
number of normals. -/
theorem smooth_loop_frame (m0 : Mesh R) (n : Nat) (m1 : Mesh R)
    (h : (List.range n).foldlM smoothStep m0 = some m1) :
    m1.vertices = m0.vertices ∧ m1.varray = m0.varray ∧ m1.narray = m0.narray ∧
      m1.normals.length = m0.normals.length :=
  foldlM_range_inv
    (fun _ (s : Mesh R) => s.vertices = m0.vertices ∧ s.varray = m0.varray ∧
      s.narray = m0.narray ∧ s.normals.length = m0.normals.length)
    smoothStep m0 n ⟨rfl, rfl, rfl, rfl⟩
    (fun j s s' _ hP hs => by
      obtain ⟨f1, f2, f3, f4⟩ := smoothStep_frame s s' j hs
      exact ⟨f1.trans hP.1, f2.trans hP.2.1, f3.trans hP.2.2.1, f4.trans hP.2.2.2⟩)
    m1 h

/-- What `SmoothNormals` leaves untouched, and the shape of what it writes. -/
theorem SmoothNormals_frame (sqrt : R → R) (m m' : Mesh R)
    (h : SmoothNormals sqrt m = some m') :
    m'.vertices = m.vertices ∧ m'.varray = m.varray ∧ m'.narray = m.varray ∧
      m'.normals.length = m.vertices.length := by
  unfold SmoothNormals at h
  simp only [Option.bind_eq_bind, Option.bind_eq_some, Option.pure_def,
    Option.some.injEq] at h
  obtain ⟨m1, hloop, rfl⟩ := h
  obtain ⟨f1, f2, f3, f4⟩ := smooth_loop_frame _ _ _ hloop
  refine ⟨f1, f2, f3, ?_⟩
  simp only [List.length_map]
  rw [f4]
  exact length_resize _ _ _

/-- `SmoothNormals` has a result on every mesh whose vertex indices are valid and
come in triples. -/
theorem SmoothNormals_some (sqrt : R → R) (m : Mesh R) (h3 : 3 ∣ m.varray.length)
    (hv : ∀ k ∈ m.varray, k < m.vertices.length) : ∃ m', SmoothNormals sqrt m = some m' := by
  obtain ⟨q, hq⟩ := h3
  obtain ⟨m1, hloop, -⟩ := foldlM_range_some
    (fun _ (s : Mesh R) => s.vertices = m.vertices ∧ s.varray = m.varray ∧
      s.narray = m.varray ∧ s.normals.length = m.vertices.length)
    smoothStep
    { m with normals := resize m.normals m.vertices.length Vector.Null, narray := m.varray }
    ((m.varray.length + 2) / 3) ⟨rfl, rfl, rfl, length_resize _ _ _⟩
    (fun j s hj hP => by
      obtain ⟨p1, p2, p3, p4⟩ := hP
      obtain ⟨s', hs'⟩ := smoothStep_some s j (p3.trans p2.symm) (by rw [p2]; omega)
        (fun k hk => by rw [p1]; exact hv k (by rw [← p2]; exact hk)) (by rw [p4, p1])
      obtain ⟨f1, f2, f3, f4⟩ := smoothStep_frame s s' j hs'
      exact ⟨s', hs', f1.trans p1, f2.trans p2, f3.trans p3, f4.trans p4⟩)
  refine ⟨{ m1 with normals := m1.normals.map (Normalized sqrt) }, ?_⟩
  unfold SmoothNormals
  simp only [Option.bind_eq_bind, Option.pure_def]
  rw [hloop]
  rfl

end SmoothLemmas

end Mesh

/-- C19: when `SmoothNormals()` returns, `normalIndex` equals `vertexIndex`, there
are as many normals as vertices, and the vertices and `vertexIndex` are unchanged;
and on a mesh whose `vertexIndex` entries are valid vertex indices and whose length
is a multiple of 3 it does return, with a mesh that satisfies the Mesh
invariants. -/
theorem C19_smooth_normals_frame {R : Type} [LinearOrderedField R] (sqrt : R → R)
    (m : Mesh R) :
    (∀ m', Mesh.SmoothNormals sqrt m = some m' →
      m'.narray = m'.varray ∧ m'.normals.length = m'.vertices.length ∧
      m'.vertices = m.vertices ∧ m'.varray = m.varray) ∧
    (3 ∣ m.varray.length → (∀ k ∈ m.varray, k < m.vertices.length) →
      ∃ m', Mesh.SmoothNormals sqrt m = some m' ∧ m'.Inv) := by
  constructor
  · intro m' h
    obtain ⟨f1, f2, f3, f4⟩ := Mesh.SmoothNormals_frame sqrt m m' h
    exact ⟨f3.trans f2.symm, by rw [f4, f1], f1, f2⟩
  · intro h3 hv
    obtain ⟨m', h⟩ := Mesh.SmoothNormals_some sqrt m h3 hv
    obtain ⟨f1, f2, f3, f4⟩ := Mesh.SmoothNormals_frame sqrt m m' h
    refine ⟨m', h, ?_, ?_, ?_, ?_⟩
    · rw [f2, f3]
    · rw [f2]; exact h3
    · intro k hk
      rw [f1]
      exact hv k (by rw [← f2]; exact hk)
    · intro k hk
      rw [f4]
      exact hv k (by rw [← f3]; exact hk)

/-- C19 on `Mesh(Box)` for the unit box over the reals: `SmoothNormals()` returns a
mesh with 8 normals that satisfies the Mesh invariants. -/
theorem C19_smooth_normals_frame_witness :
    ∃ m', Mesh.SmoothNormals Real.sqrt (Mesh.ofBox (⟨⟨0, 0, 0⟩, ⟨1, 1, 1⟩⟩ : Box ℝ)) = some m' ∧
      m'.Inv ∧ m'.normals.length = 8 := by
  have h := C19_smooth_normals_frame Real.sqrt (Mesh.ofBox (⟨⟨0, 0, 0⟩, ⟨1, 1, 1⟩⟩ : Box ℝ))
  obtain ⟨m', hm, hinv⟩ := h.2 (ofBox_inv _).2.1 (ofBox_inv _).2.2.1
  exact ⟨m', hm, hinv, ((h.1 m' hm).2.1).trans (by rw [(h.1 m' hm).2.2.1]; rfl)⟩


section VectorAlgebra

variable {R : Type} [LinearOrderedField R]

theorem Vector.add_assoc' (u v w : Vector R) : u + v + w = u + (v + w) := by
  simp only [Vector.add_def]
  congr 1 <;> ring

theorem Vector.add_Null (u : Vector R) : u + Vector.Null = u := by
  simp [Vector.add_def, Vector.Null]

theorem Vector.Null_add (u : Vector R) : Vector.Null + u = u := by
  simp [Vector.add_def, Vector.Null]

end VectorAlgebra

namespace Mesh

section AccumulationLemmas

variable {R : Type} [LinearOrderedField R]

/-- `normals[i] += tn` adds `tn` to entry `i` and to no other entry. -/
theorem addAt_getElem? (l l' : List (Vector R)) (i : Nat) (tn : Vector R)
    (h : addAt l i tn = some l') (k : Nat) :
    l'[k]? = (l[k]?).map (fun v => v + if i = k then tn else Vector.Null) := by
  unfold addAt at h
  cases hi : l[i]? with
  | none => simp [hi] at h
  | some old =>
    simp [hi] at h
    subst h
    by_cases hik : i = k
    · subst hik
      have hlt : i < l.length := by
        by_contra hge
        rw [List.getElem?_eq_none (by omega)] at hi
        cases hi
      rw [List.getElem?_set_self hlt, hi]
      simp
    · rw [List.getElem?_set_ne hik]
      cases l[k]? with
      | none => rfl
      | some v => simp [hik, Vector.add_Null]

theorem cornerSum_succ (vertices : List (Vector R)) (varray : List Nat) (k n : Nat) :
    cornerSum vertices varray k (n + 1) =
      cornerSum vertices varray k n + cornerTerm vertices varray k n := by
  unfold cornerSum
  rw [List.range_succ, List.foldl_append]
  rfl

/-- A successful iteration for triangle `t` adds `cornerTerm k t` to the normal of
every vertex `k`. -/
theorem smoothStep_normals (m m' : Mesh R) (t : Nat) (hna : m.narray = m.varray)
    (h : smoothStep m t = some m') (k : Nat) :
    m'.normals[k]? = (m.normals[k]?).map (fun v => v + cornerTerm m.vertices m.varray k t) := by
  unfold smoothStep at h
  simp only [Option.bind_eq_bind, Option.bind_eq_some, Option.pure_def, Option.some.injEq,
    hna, Nat.add_zero] at h
  obtain ⟨ia, hia, ib, hib, ic, hic, a, ha, b, hb, c, hc, na, hna', n1, h1, nb, hnb, n2, h2,
    nc, hnc, n3, h3, rfl⟩ := h
  have e0 : m.varray.getD (3 * t) 0 = ia := by
    rw [List.getD_eq_getElem?_getD, hia]; rfl
  have e1 : m.varray.getD (3 * t + 1) 0 = ib := by
    rw [List.getD_eq_getElem?_getD, hib]; rfl
  have e2 : m.varray.getD (3 * t + 2) 0 = ic := by
    rw [List.getD_eq_getElem?_getD, hic]; rfl
  have va : m.vertices.getD ia Vector.Null = a := by
    rw [List.getD_eq_getElem?_getD, ha]; rfl
  have vb : m.vertices.getD ib Vector.Null = b := by
    rw [List.getD_eq_getElem?_getD, hb]; rfl
  have vc : m.vertices.getD ic Vector.Null = c := by
    rw [List.getD_eq_getElem?_getD, hc]; rfl
  have hna2 : na = ia := by rw [hia] at hna'; exact (Option.some.inj hna').symm
  have hnb2 : nb = ib := by rw [hib] at hnb; exact (Option.some.inj hnb).symm
  have hnc2 : nc = ic := by rw [hic] at hnc; exact (Option.some.inj hnc).symm
  subst hna2 hnb2 hnc2
  simp only
  rw [addAt_getElem? _ _ _ _ h3 k, addAt_getElem? _ _ _ _ h2 k, addAt_getElem? _ _ _ _ h1 k]
  unfold cornerTerm
  rw [e0, e1, e2, va, vb, vc]
  cases m.normals[k]? with
  | none => rfl
  | some v => simp [Vector.add_assoc']

/-- The accumulation loop from a mesh whose `narray` is its `varray`: the normal
of every vertex `k` grows by the contributions of the `n` triangles. -/
theorem smooth_loop_normals (m0 : Mesh R) (hna : m0.narray = m0.varray) (n : Nat)
    (m1 : Mesh R) (h : (List.range n).foldlM smoothStep m0 = some m1) (k : Nat) :
    m1.normals[k]? =
      (m0.normals[k]?).map (fun v => v + cornerSum m0.vertices m0.varray k n) := by
  have hP := foldlM_range_inv
    (fun j (s : Mesh R) => (s.vertices = m0.vertices ∧ s.varray = m0.varray ∧
      s.narray = m0.varray) ∧
      s.normals[k]? = (m0.normals[k]?).map (fun v => v + cornerSum m0.vertices m0.varray k j))
    smoothStep m0 n
    ⟨⟨rfl, rfl, hna⟩, by
      cases m0.normals[k]? with
      | none => rfl
      | some v => simp [cornerSum, Vector.add_Null]⟩
    (fun j s s' _ hPs hs => by
      obtain ⟨⟨p1, p2, p3⟩, p4⟩ := hPs
      obtain ⟨f1, f2, f3, -⟩ := smoothStep_frame s s' j hs
      refine ⟨⟨f1.trans p1, f2.trans p2, f3.trans p3⟩, ?_⟩
      rw [smoothStep_normals s s' j (p3.trans p2.symm) hs k, p4, p1, p2, cornerSum_succ]
      cases m0.normals[k]? with
      | none => rfl
      | some v => simp [Vector.add_assoc'])
    m1 h
  exact hP.2

/-- What `SmoothNormals` computes: the normal of vertex `k` is the normalisation of
the entry `k` of the resized normal array (the normal stored before the call when
there was one, the zero vector otherwise) plus the area normals of the triangle
corners at vertex `k`. -/
theorem SmoothNormals_normals (sqrt : R → R) (m m' : Mesh R)
    (h : SmoothNormals sqrt m = some m') (k : Nat) :
    m'.normals[k]? = ((resize m.normals m.vertices.length Vector.Null)[k]?).map
      (fun v => Normalized sqrt
        (v + cornerSum m.vertices m.varray k ((m.varray.length + 2) / 3))) := by
  unfold SmoothNormals at h
  simp only [Option.bind_eq_bind, Option.bind_eq_some, Option.pure_def,
    Option.some.injEq] at h
  obtain ⟨m1, hloop, rfl⟩ := h
  simp only [List.getElem?_map]
  rw [smooth_loop_normals _ rfl _ _ hloop k]
  cases (resize m.normals m.vertices.length Vector.Null)[k]? with
  | none => rfl
  | some v => rfl

end AccumulationLemmas

end Mesh


section BoxSmoothing

theorem resize_getElem?_lt {α : Type} (l : List α) (n k : Nat) (v : α) (hk : k < l.length)
    (hn : k < n) : (Mesh.resize l n v)[k]? = l[k]? := by
  unfold Mesh.resize
  rw [List.getElem?_append_left (by rw [List.length_take]; omega), List.getElem?_take,
    if_pos hn]

theorem unitBox_vertices :
    (Mesh.ofBox (⟨⟨0, 0, 0⟩, ⟨1, 1, 1⟩⟩ : Box ℝ)).vertices =
      [⟨0, 0, 0⟩, ⟨1, 0, 0⟩, ⟨0, 1, 0⟩, ⟨1, 1, 0⟩, ⟨0, 0, 1⟩, ⟨1, 0, 1⟩, ⟨0, 1, 1⟩, ⟨1, 1, 1⟩] := by
  show (List.range 8).map (Box.Vertex (⟨⟨0, 0, 0⟩, ⟨1, 1, 1⟩⟩ : Box ℝ)) = _
  simp [Box.Vertex, List.range_succ]

/-- The area normals of the four triangles of the unit box at corner `0` add up to
`(-1, -2, -1)`. -/
theorem unitBox_cornerSum :
    Mesh.cornerSum
      ([⟨0, 0, 0⟩, ⟨1, 0, 0⟩, ⟨0, 1, 0⟩, ⟨1, 1, 0⟩, ⟨0, 0, 1⟩, ⟨1, 0, 1⟩, ⟨0, 1, 1⟩, ⟨1, 1, 1⟩] :
        List (Vector ℝ))
      [0, 2, 1, 1, 2, 3, 4, 5, 6, 5, 7, 6, 0, 4, 2, 4, 6, 2, 1, 3, 5, 3, 7, 5,
       0, 1, 5, 0, 5, 4, 3, 2, 7, 6, 7, 2] 0 12 = ⟨-1, -2, -1⟩ := by
  simp [Mesh.cornerSum, Mesh.cornerTerm, List.range_succ, AreaNormal, Vector.cross,
    Vector.sub_def, Vector.add_def, Vector.Null]
  norm_num

/-- A normalised vector with two equal non-zero components differs from the
normalisation of its sum with a vector whose matching components differ. -/
theorem normalized_box_corner_ne :
    Normalized Real.sqrt (⟨-2, -2, -1⟩ : Vector ℝ) ≠
      Normalized Real.sqrt (Normalized Real.sqrt (⟨-2, -2, -1⟩ : Vector ℝ) + ⟨-1, -2, -1⟩) := by
  intro hEq
  have hx := congrArg Vector.x hEq
  have hy := congrArg Vector.y hEq
  simp only [Normalized, Vector.scale_def, Vector.add_def] at hx hy
  have hk1 : (1 : ℝ) / Norm Real.sqrt (⟨-2, -2, -1⟩ : Vector ℝ) ≠ 0 := by
    have hpos : 0 < Norm Real.sqrt (⟨-2, -2, -1⟩ : Vector ℝ) := by
      unfold Norm Vector.dot
      apply Real.sqrt_pos.mpr
      norm_num
    exact one_div_ne_zero (ne_of_gt hpos)
  generalize (1 : ℝ) / Norm Real.sqrt (⟨-2, -2, -1⟩ : Vector ℝ) = k1 at hx hy hk1
  generalize (1 : ℝ) / Norm Real.sqrt _ = k2 at hx hy
  have hk2 : k2 = 0 := by linear_combination hy - hx
  rw [hk2] at hx
  apply hk1
  linarith

end BoxSmoothing

/-- C13 (the code at a failing input): on `Mesh(Box)` for the unit box, which
satisfies the Mesh invariants, the first `SmoothNormals()` stores for vertex `0`
the normalisation of `(-1,0,0) + (-1,-2,-1)` (the face normal that was at index
`0`, plus the area normals of the triangles at the corner), and the second one
the normalisation of that normal plus `(-1,-2,-1)`: the two normal arrays
differ. -/
theorem C13_smooth_normals_twice_differs :
    (Mesh.ofBox (⟨⟨0, 0, 0⟩, ⟨1, 1, 1⟩⟩ : Box ℝ)).Inv ∧
    ∃ m1 m2 : Mesh ℝ,
      Mesh.SmoothNormals Real.sqrt (Mesh.ofBox (⟨⟨0, 0, 0⟩, ⟨1, 1, 1⟩⟩ : Box ℝ)) = some m1 ∧
      Mesh.SmoothNormals Real.sqrt m1 = some m2 ∧
      m1.normals[0]? = some (Normalized Real.sqrt ⟨-2, -2, -1⟩) ∧
      m2.normals[0]? = some (Normalized Real.sqrt
        (Normalized Real.sqrt (⟨-2, -2, -1⟩ : Vector ℝ) + ⟨-1, -2, -1⟩)) ∧
      m1.normals ≠ m2.normals := by
  refine ⟨ofBox_inv _, ?_⟩
  obtain ⟨m1, h1⟩ := Mesh.SmoothNormals_some Real.sqrt
    (Mesh.ofBox (⟨⟨0, 0, 0⟩, ⟨1, 1, 1⟩⟩ : Box ℝ)) (ofBox_inv _).2.1 (ofBox_inv _).2.2.1
  obtain ⟨f1, f2, f3, f4⟩ := Mesh.SmoothNormals_frame Real.sqrt _ m1 h1
  have hv1 : m1.vertices = [⟨0, 0, 0⟩, ⟨1, 0, 0⟩, ⟨0, 1, 0⟩, ⟨1, 1, 0⟩, ⟨0, 0, 1⟩, ⟨1, 0, 1⟩,
      ⟨0, 1, 1⟩, ⟨1, 1, 1⟩] := f1.trans unitBox_vertices
  have ha1 : m1.varray = [0, 2, 1, 1, 2, 3, 4, 5, 6, 5, 7, 6, 0, 4, 2, 4, 6, 2, 1, 3, 5, 3, 7, 5,
      0, 1, 5, 0, 5, 4, 3, 2, 7, 6, 7, 2] := f2.trans (ofBox_varray _)
  obtain ⟨m2, h2⟩ := Mesh.SmoothNormals_some Real.sqrt m1
    (by rw [ha1]; decide) (by rw [ha1, hv1]; decide)
  have hn1 : m1.normals[0]? = some (Normalized Real.sqrt ⟨-2, -2, -1⟩) := by
    rw [Mesh.SmoothNormals_normals Real.sqrt _ m1 h1 0, unitBox_vertices, ofBox_varray,
      ofBox_normals]
    have hs := unitBox_cornerSum
    simp only [List.length_cons, List.length_nil] at hs ⊢
    norm_num at hs ⊢
    rw [hs]
    simp [Mesh.resize, Vector.add_def]
    norm_num
  have hn2 : m2.normals[0]? = some (Normalized Real.sqrt
      (Normalized Real.sqrt (⟨-2, -2, -1⟩ : Vector ℝ) + ⟨-1, -2, -1⟩)) := by
    rw [Mesh.SmoothNormals_normals Real.sqrt _ m2 h2 0,
      resize_getElem?_lt _ _ _ _ (by rw [f4, unitBox_vertices]; decide)
        (by rw [hv1]; decide), hn1, hv1, ha1]
    have hs := unitBox_cornerSum
    simp only [List.length_cons, List.length_nil] at hs ⊢
    norm_num at hs ⊢
    rw [hs]
  refine ⟨m1, m2, h1, h2, hn1, hn2, fun hEq => ?_⟩
  rw [hEq, hn2] at hn1
  exact normalized_box_corner_ne (Option.some.inj hn1).symm


section WarpLemmas

variable {R : Type} [LinearOrderedField R]

/-- On a non-negative value the clamp to `[0, 1]` is the minimum with `1`. -/
theorem Clamp_eq_min (x : R) (hx : 0 ≤ x) : Clamp x = min 1 x := by
  unfold Clamp
  rw [if_neg (not_lt.mpr hx)]
  split_ifs with h
  · exact (min_eq_left (le_of_lt h)).symm
  · exact (min_eq_right (not_lt.mp h)).symm

/-- `SphereWarp` is `SmoothNormals` on the mesh whose vertices are displaced. -/
theorem Mesh.SphereWarp_eq (sqrt : R → R) (m : Mesh R) (c : Vector R) (r : R) (d : Vector R) :
    Mesh.SphereWarp sqrt m c r d =
      Mesh.SmoothNormals sqrt { m with vertices := (m.vertices.map
        (fun (v : Vector R) => v + d * Clamp (Norm sqrt (v - c) / r))) } := by
  unfold Mesh.SphereWarp
  simp only
  have h := Mesh.vertices_loop (fun (v : Vector R) => v + d * Clamp (Norm sqrt (v - c) / r)) m
  have h' : (List.range m.vertices.length).foldl (Mesh.warpStep sqrt c r d) m =
      { m with vertices := (m.vertices.map
        (fun (v : Vector R) => v + d * Clamp (Norm sqrt (v - c) / r))) } := h
  rw [h']

theorem Norm_nonneg (u : Vector ℝ) : 0 ≤ Norm Real.sqrt u := Real.sqrt_nonneg _

theorem Vector.scale_one (d : Vector R) : d * (1 : R) = d := by
  simp [Vector.scale_def]

theorem Vector.scale_zero (d : Vector R) : d * (0 : R) = Vector.Null := by
  simp [Vector.scale_def, Vector.Null]

end WarpLemmas

/-- C16: for `r > 0`, when `SphereWarp(c, r, d)` returns, every vertex `v` has moved
to `v + d * min(1, |v - c| / r)` and `vertexIndex` is unchanged, and it does return
on a mesh whose vertex indices are valid and come in triples. A vertex at
distance at least `r` from `c` moves by `d`, a vertex at `c` does not move, and a
vertex at distance `t r` with `0 ≤ t ≤ 1` moves by `t d`. -/
theorem C16_sphere_warp (m : Mesh ℝ) (c : Vector ℝ) (r : ℝ) (d : Vector ℝ) (hr : 0 < r) :
    (∀ m', Mesh.SphereWarp Real.sqrt m c r d = some m' →
      m'.vertices = m.vertices.map
        (fun (v : Vector ℝ) => v + d * min 1 (Norm Real.sqrt (v - c) / r)) ∧
      m'.varray = m.varray) ∧
    (3 ∣ m.varray.length → (∀ k ∈ m.varray, k < m.vertices.length) →
      ∃ m', Mesh.SphereWarp Real.sqrt m c r d = some m') ∧
    (∀ v : Vector ℝ, r ≤ Norm Real.sqrt (v - c) →
      v + d * min 1 (Norm Real.sqrt (v - c) / r) = v + d) ∧
    c + d * min 1 (Norm Real.sqrt (c - c) / r) = c ∧
    (∀ (v : Vector ℝ) (t : ℝ), 0 ≤ t → t ≤ 1 → Norm Real.sqrt (v - c) = t * r →
      v + d * min 1 (Norm Real.sqrt (v - c) / r) = v + d * t) := by
  have hmap : m.vertices.map (fun (v : Vector ℝ) => v + d * Clamp (Norm Real.sqrt (v - c) / r)) =
      m.vertices.map (fun (v : Vector ℝ) => v + d * min 1 (Norm Real.sqrt (v - c) / r)) :=
    List.map_congr_left fun v _ => by
      rw [Clamp_eq_min _ (div_nonneg (Norm_nonneg _) (le_of_lt hr))]
  refine ⟨fun m' h => ?_, fun h3 hv => ?_, fun v hv => ?_, ?_, fun v t ht0 ht1 hv => ?_⟩
  · rw [Mesh.SphereWarp_eq] at h
    obtain ⟨f1, f2, -, -⟩ := Mesh.SmoothNormals_frame Real.sqrt _ m' h
    exact ⟨f1.trans hmap, f2⟩
  · rw [Mesh.SphereWarp_eq]
    exact Mesh.SmoothNormals_some Real.sqrt _ h3
      (fun k hk => by simpa using hv k hk)
  · rw [min_eq_left ((one_le_div hr).mpr hv), Vector.scale_one]
  · have h0 : Norm Real.sqrt (c - c) = 0 := by
      simp [Norm, Vector.dot, Vector.sub_def]
    rw [h0, zero_div, min_eq_right zero_le_one, Vector.scale_zero, Vector.add_Null]
  · rw [hv, mul_div_assoc, div_self (ne_of_gt hr), mul_one, min_eq_right ht1]

/-- C16 on a mesh of one triangle, warped around the origin with radius `1` by
`(0, 0, 1)`: the vertex at the origin stays, the vertices at distance `2` and `3`
move by the whole displacement. -/
theorem C16_sphere_warp_witness :
    ∃ m', Mesh.SphereWarp Real.sqrt
        (Mesh.ofArrays [⟨0, 0, 0⟩, ⟨2, 0, 0⟩, ⟨0, 3, 0⟩] [⟨0, 0, 1⟩] [0, 1, 2] [0, 0, 0] : Mesh ℝ)
        ⟨0, 0, 0⟩ 1 ⟨0, 0, 1⟩ = some m' ∧
      m'.vertices = [⟨0, 0, 0⟩, ⟨2, 0, 1⟩, ⟨0, 3, 1⟩] ∧ m'.varray = [0, 1, 2] := by
  have h := C16_sphere_warp
    (Mesh.ofArrays [⟨0, 0, 0⟩, ⟨2, 0, 0⟩, ⟨0, 3, 0⟩] [⟨0, 0, 1⟩] [0, 1, 2] [0, 0, 0] : Mesh ℝ)
    ⟨0, 0, 0⟩ 1 ⟨0, 0, 1⟩ one_pos
  obtain ⟨m', hm⟩ := h.2.1 (by decide) (by decide)
  obtain ⟨hv, ha⟩ := h.1 m' hm
  refine ⟨m', hm, ?_, ha⟩
  rw [hv]
  have h2 : Real.sqrt (2 * 2) = 2 := Real.sqrt_mul_self (by norm_num)
  have h3 : Real.sqrt (3 * 3) = 3 := Real.sqrt_mul_self (by norm_num)
  simp [Mesh.ofArrays, Norm, Vector.dot, Vector.sub_def, Vector.add_def, Vector.scale_def,
    h2, h3]


namespace Mesh

section EntryLemmas

variable {R : Type} [LinearOrderedField R]

/-- The vertex of the sphere at row `i` and column `j`. -/
theorem ofSphere_vertex_at (M : Mathematics R) (sphere : Sphere R) (n i j : Nat)
    (hi : i ≤ n) (hj : j ≤ 2 * n) :
    (ofSphere M sphere n).vertices[i * (2 * n + 1) + j]? =
      some (spherePoint M sphere.r (2 * M.Pi / ((2 * n : Nat) : R)) (M.Pi / (n : R)) i j) := by
  rw [ofSphere_eq]
  simp only
  rw [getElem?_flatMap_range _ (2 * n + 1) (n + 1) i j (fun a _ => by simp) (by omega)
    (by omega), List.getElem?_map, List.getElem?_range (by omega)]
  rfl

/-- The normal of the sphere at row `i` and column `j`: the normalised difference
of the vertex and the center. -/
theorem ofSphere_normal_at (M : Mathematics R) (sphere : Sphere R) (n i j : Nat)
    (hi : i ≤ n) (hj : j ≤ 2 * n) :
    (ofSphere M sphere n).normals[i * (2 * n + 1) + j]? =
      some (Normalized M.sqrt
        (spherePoint M sphere.r (2 * M.Pi / ((2 * n : Nat) : R)) (M.Pi / (n : R)) i j
          - sphere.c)) := by
  rw [ofSphere_eq]
  simp only
  rw [getElem?_flatMap_range _ (2 * n + 1) (n + 1) i j (fun a _ => by simp) (by omega)
    (by omega), List.getElem?_map, List.getElem?_range (by omega)]
  rfl

end EntryLemmas

end Mesh

/-- C14 (the code at a failing input): for the unit sphere centred at `(1, 0, 0)`
and `n = 2`, the vertex at row `1`, column `0` (index `5`) is `(1, 0, 0)`, the
center itself, because the generator does not add the center to the positions;
the normal stored at index `5` is the zero vector: it has not unit length and its
dot product with `vertex - c` is not positive. -/
theorem C14_sphere_normal_at_center :
    (Mesh.ofSphere (⟨Real.sqrt, Real.cos, Real.sin, Real.pi, 2 * Real.pi⟩ : Mathematics ℝ)
      ⟨⟨1, 0, 0⟩, 1⟩ 2).vertices[5]? = some ⟨1, 0, 0⟩ ∧
    (Mesh.ofSphere (⟨Real.sqrt, Real.cos, Real.sin, Real.pi, 2 * Real.pi⟩ : Mathematics ℝ)
      ⟨⟨1, 0, 0⟩, 1⟩ 2).normals[5]? = some ⟨0, 0, 0⟩ ∧
    Norm Real.sqrt (⟨0, 0, 0⟩ : Vector ℝ) ≠ 1 ∧
    ¬ 0 < (⟨0, 0, 0⟩ : Vector ℝ).dot ((⟨1, 0, 0⟩ : Vector ℝ) - ⟨1, 0, 0⟩) := by
  have hv := Mesh.ofSphere_vertex_at
    (⟨Real.sqrt, Real.cos, Real.sin, Real.pi, 2 * Real.pi⟩ : Mathematics ℝ)
    ⟨⟨1, 0, 0⟩, 1⟩ 2 1 0 (by decide) (by decide)
  have hn := Mesh.ofSphere_normal_at
    (⟨Real.sqrt, Real.cos, Real.sin, Real.pi, 2 * Real.pi⟩ : Mathematics ℝ)
    ⟨⟨1, 0, 0⟩, 1⟩ 2 1 0 (by decide) (by decide)
  have hp : Mesh.spherePoint
      (⟨Real.sqrt, Real.cos, Real.sin, Real.pi, 2 * Real.pi⟩ : Mathematics ℝ) 1
      (2 * Real.pi / ((2 * 2 : Nat) : ℝ)) (Real.pi / ((2 : Nat) : ℝ)) 1 0 = ⟨1, 0, 0⟩ := by
    simp [Mesh.spherePoint]
  rw [hp] at hv hn
  refine ⟨hv, ?_, ?_, ?_⟩
  · rw [show (5 : Nat) = 1 * (2 * 2 + 1) + 0 from rfl, hn]
    simp [Normalized, Vector.sub_def, Vector.scale_def]
  · simp [Norm, Vector.dot]
  · simp [Vector.dot]


/-- C17 (the code at a failing input): for `n = 3` and `slice = 4` the second corner
of the first triangle of the quadrangle `j = 2`, `i = 0` (entry `37` of
`vertexIndex`) is `((j + 1) % n) * n + i = 0`, a vertex of slice `0`, where the
spec's quadrangle has `((j + 1) % slice) * n + i = 9`, the vertex of slice `3`:
the index array is not the one of the spec. Normal and vertex indices agree. -/
theorem C17_torus_wraps_by_minor_resolution {R : Type} [LinearOrderedField R]
    (M : Mathematics R) (O : Vector R → Vector R × Vector R) (t : Torus R) :
    (Mesh.ofTorus M O t 3 4).varray[37]? = some 0 ∧
    (Mesh.torusSpecIndices 3 4)[37]? = some 9 ∧
    (Mesh.ofTorus M O t 3 4).varray ≠ Mesh.torusSpecIndices 3 4 ∧
    (Mesh.ofTorus M O t 3 4).narray = (Mesh.ofTorus M O t 3 4).varray := by
  have ha : (Mesh.ofTorus M O t 3 4).varray[37]? = some 0 := by
    rw [Mesh.ofTorus_eq]
    simp only
    decide
  have hs : (Mesh.torusSpecIndices 3 4)[37]? = some 9 := by decide
  refine ⟨ha, hs, fun hEq => ?_, ?_⟩
  · rw [hEq, hs] at ha
    exact absurd ha (by decide)
  · rw [Mesh.ofTorus_eq]

namespace Mesh

section CylinderSideLemmas

variable {R : Type} [LinearOrderedField R]

/-- The first `n` vertices of the cylinder are the ring around `a`. -/
theorem ofCylinder_ring_vertex (M : Mathematics R) (O : Vector R → Vector R × Vector R)
    (c : Cylinder R) (n i : Nat) (hi : i < n) :
    (ofCylinder M O c n).vertices[i]? =
      some (ringPoint M c.a c.r (O (Normalized M.sqrt (c.b - c.a))).1
        (O (Normalized M.sqrt (c.b - c.a))).2 (M.TwoPi / (n : R)) i) := by
  rw [ofCylinder_eq, cylinderSecondCap_eq, cylinderFirstCap_eq]
  simp only
  rw [List.getElem?_append_left (by simp; omega),
    List.getElem?_append_left (by simp; omega), List.getElem?_map,
    List.getElem?_range hi]
  rfl

/-- The side normal of column `i` of the cylinder, stored at index `2 + i`, is the
normalisation of `a - vertices[i]`. -/
theorem ofCylinder_side_normal (M : Mathematics R) (O : Vector R → Vector R × Vector R)
    (c : Cylinder R) (n i : Nat) (hi : i < n) :
    (ofCylinder M O c n).normals[2 + i]? =
      some (Normalized M.sqrt (c.a - ringPoint M c.a c.r (O (Normalized M.sqrt (c.b - c.a))).1
        (O (Normalized M.sqrt (c.b - c.a))).2 (M.TwoPi / (n : R)) i)) := by
  have hv := ofCylinder_ring_vertex M O c n i hi
  rw [ofCylinder_eq] at hv ⊢
  simp only at hv ⊢
  rw [List.getElem?_append_right (by simp), List.getElem?_map]
  simp only [List.length_cons, List.length_nil, Nat.add_sub_cancel_left]
  rw [List.getElem?_range hi]
  simp only [Option.map_some']
  rw [List.getD_eq_getElem?_getD, hv]
  rfl

/-- The six corners of the two side triangles of column `i` carry the normal
index `2 + i`. -/
theorem ofCylinder_side_narray (M : Mathematics R) (O : Vector R → Vector R × Vector R)
    (c : Cylinder R) (n i k : Nat) (hi : i < n) (hk : k < 6) :
    (ofCylinder M O c n).narray[6 * n + 6 * i + k]? = some (2 + i) := by
  rw [ofCylinder_eq]
  simp only
  have hzero : ((List.range n).flatMap (fun _ => [0, 0, 0])).length = n * 3 := by
    rw [length_flatMap_const _ _ 3 (fun i _ => by simp), List.length_range]
  rw [List.getElem?_append_right (by rw [List.length_append, hzero]; omega),
    List.length_append, hzero]
  have hidx : 6 * n + 6 * i + k - (n * 3 + n * 3) = i * 6 + k := by omega
  rw [hidx, getElem?_flatMap_range _ 6 n i k (fun a _ => by simp) hi hk,
    List.getElem?_replicate, if_pos hk]

end CylinderSideLemmas

end Mesh

/-- C18 (what the code computes): the side normal of column `i < n` of
`Mesh(Cylinder, n)`, stored at normal index `2 + i` and carried by the six corners
of the two side triangles of the column, is `Normalized(a - vertices[i])`, the
direction from the first-ring vertex `i` to the axis point `a`. -/
theorem C18_cylinder_side_normal_inward {R : Type} [LinearOrderedField R]
    (M : Mathematics R) (O : Vector R → Vector R × Vector R) (c : Cylinder R) (n i : Nat)
    (hi : i < n) :
    ∃ v : Vector R, (Mesh.ofCylinder M O c n).vertices[i]? = some v ∧
      (Mesh.ofCylinder M O c n).normals[2 + i]? = some (Normalized M.sqrt (c.a - v)) ∧
      ∀ k, k < 6 → (Mesh.ofCylinder M O c n).narray[6 * n + 6 * i + k]? = some (2 + i) :=
  ⟨_, Mesh.ofCylinder_ring_vertex M O c n i hi, Mesh.ofCylinder_side_normal M O c n i hi,
    fun k hk => Mesh.ofCylinder_side_narray M O c n i k hi hk⟩

/-- C18 at the cylinder from `(0,0,0)` to `(0,0,1)` of radius `1` with `n = 3`: the
first-ring vertex `0` is `(1,0,0)`, the side normal of column `0` is `(-1,0,0)`,
and its dot product with `vertex - a` is `-1`. -/
theorem C18_cylinder_side_normal_inward_witness :
    (Mesh.ofCylinder (⟨Real.sqrt, Real.cos, Real.sin, Real.pi, 2 * Real.pi⟩ : Mathematics ℝ)
      (fun _ => (⟨1, 0, 0⟩, ⟨0, 1, 0⟩)) ⟨⟨0, 0, 0⟩, ⟨0, 0, 1⟩, 1⟩ 3).vertices[0]? =
        some ⟨1, 0, 0⟩ ∧
    (Mesh.ofCylinder (⟨Real.sqrt, Real.cos, Real.sin, Real.pi, 2 * Real.pi⟩ : Mathematics ℝ)
      (fun _ => (⟨1, 0, 0⟩, ⟨0, 1, 0⟩)) ⟨⟨0, 0, 0⟩, ⟨0, 0, 1⟩, 1⟩ 3).normals[2]? =
        some ⟨-1, 0, 0⟩ ∧
    (⟨-1, 0, 0⟩ : Vector ℝ).dot ((⟨1, 0, 0⟩ : Vector ℝ) - ⟨0, 0, 0⟩) = -1 := by
  obtain ⟨v, hv, hn, -⟩ := C18_cylinder_side_normal_inward
    (⟨Real.sqrt, Real.cos, Real.sin, Real.pi, 2 * Real.pi⟩ : Mathematics ℝ)
    (fun _ => (⟨1, 0, 0⟩, ⟨0, 1, 0⟩)) ⟨⟨0, 0, 0⟩, ⟨0, 0, 1⟩, 1⟩ 3 0 (by decide)
  have hv0 := Mesh.ofCylinder_ring_vertex
    (⟨Real.sqrt, Real.cos, Real.sin, Real.pi, 2 * Real.pi⟩ : Mathematics ℝ)
    (fun _ => (⟨1, 0, 0⟩, ⟨0, 1, 0⟩)) ⟨⟨0, 0, 0⟩, ⟨0, 0, 1⟩, 1⟩ 3 0 (by decide)
  have hp : Mesh.ringPoint
      (⟨Real.sqrt, Real.cos, Real.sin, Real.pi, 2 * Real.pi⟩ : Mathematics ℝ)
      (⟨0, 0, 0⟩ : Vector ℝ) 1 ⟨1, 0, 0⟩ ⟨0, 1, 0⟩ (2 * Real.pi / ((3 : Nat) : ℝ)) 0 =
        ⟨1, 0, 0⟩ := by
    simp [Mesh.ringPoint, Vector.add_def, Vector.scale_def, Vector.smul_def]
  simp only at hv0
  rw [hp] at hv0
  rw [hv0] at hv
  have hveq : v = ⟨1, 0, 0⟩ := (Option.some.inj hv).symm
  subst hveq
  refine ⟨hv0, ?_, ?_⟩
  · rw [hn]
    simp [Normalized, Norm, Vector.dot, Vector.sub_def, Vector.scale_def]
  · simp [Vector.dot, Vector.sub_def]


namespace Mesh

section TorusEntryLemmas

variable {R : Type} [LinearOrderedField R]

/-- The vertex and the normal of the torus at slice `i` and minor step `j`. -/
theorem ofTorus_entry_at (M : Mathematics R) (O : Vector R → Vector R × Vector R)
    (t : Torus R) (n slice i j : Nat) (hi : i < slice) (hj : j < n) :
    (ofTorus M O t n slice).vertices[i * n + j]? =
      some (torusPoint M t.c t.r t.InnerRadius (O (Normalized M.sqrt t.n)).1
        (O (Normalized M.sqrt t.n)).2 (Normalized M.sqrt t.n)
        (M.TwoPi / (slice : R)) (M.TwoPi / (n : R)) i j) ∧
    (ofTorus M O t n slice).normals[i * n + j]? =
      some (torusNormal M (O (Normalized M.sqrt t.n)).1
        (O (Normalized M.sqrt t.n)).2 (Normalized M.sqrt t.n)
        (M.TwoPi / (slice : R)) (M.TwoPi / (n : R)) i j) := by
  rw [ofTorus_eq]
  simp only
  constructor
  · rw [getElem?_flatMap_range _ n slice i j (fun a _ => by simp) hi hj, List.getElem?_map,
      List.getElem?_range hj]
    rfl
  · rw [getElem?_flatMap_range _ n slice i j (fun a _ => by simp) hi hj, List.getElem?_map,
      List.getElem?_range hj]
    rfl

end TorusEntryLemmas

end Mesh

section RealVectorLemmas

/-- A non-zero real vector has a positive squared length. -/
theorem dot_self_pos (u : Vector ℝ) (hu : u ≠ Vector.Null) : 0 < u.dot u := by
  obtain ⟨x, y, z⟩ := u
  have hne : x ≠ 0 ∨ y ≠ 0 ∨ z ≠ 0 := by
    by_contra hcon
    push_neg at hcon
    obtain ⟨rfl, rfl, rfl⟩ := hcon
    exact hu rfl
  simp only [Vector.dot]
  rcases hne with h | h | h
  · have := mul_self_pos.mpr h
    nlinarith [mul_self_nonneg y, mul_self_nonneg z]
  · have := mul_self_pos.mpr h
    nlinarith [mul_self_nonneg x, mul_self_nonneg z]
  · have := mul_self_pos.mpr h
    nlinarith [mul_self_nonneg x, mul_self_nonneg y]

/-- The normalisation of a non-zero real vector has squared length `1`. -/
theorem normalized_dot_self (u : Vector ℝ) (hu : u ≠ Vector.Null) :
    (Normalized Real.sqrt u).dot (Normalized Real.sqrt u) = 1 := by
  have hpos := dot_self_pos u hu
  have hs : Real.sqrt (u.dot u) * Real.sqrt (u.dot u) = u.dot u :=
    Real.mul_self_sqrt (le_of_lt hpos)
  have hne : Real.sqrt (u.dot u) ≠ 0 := ne_of_gt (Real.sqrt_pos.mpr hpos)
  simp only [Normalized, Norm, Vector.scale_def]
  generalize hk : Real.sqrt (u.dot u) = k at hs hne
  simp only [Vector.dot] at hs ⊢
  field_simp
  linear_combination -hs

/-- A unit combination of a unit vector `u` and a unit vector `z` orthogonal to it,
for `u` a unit combination of the orthonormal `x`, `y`: the tube direction of the
torus has squared length `1`. -/
theorem torus_direction_unit (x y z : Vector ℝ) (ct st cp sp : ℝ)
    (hxx : x.dot x = 1) (hyy : y.dot y = 1) (hzz : z.dot z = 1) (hxy : x.dot y = 0)
    (hxz : x.dot z = 0) (hyz : y.dot z = 0) (ht : ct ^ 2 + st ^ 2 = 1)
    (hp : cp ^ 2 + sp ^ 2 = 1) :
    (cp * (ct * x + st * y) + sp * z).dot (cp * (ct * x + st * y) + sp * z) = 1 := by
  simp only [Vector.dot, Vector.add_def, Vector.smul_def] at *
  linear_combination (cp ^ 2 * ct ^ 2) * hxx + (cp ^ 2 * st ^ 2) * hyy +
    (2 * cp ^ 2 * ct * st) * hxy + (2 * cp * sp * ct) * hxz + (2 * cp * sp * st) * hyz +
    sp ^ 2 * hzz + cp ^ 2 * ht + hp

end RealVectorLemmas


/-- C15: over the reals, for a torus with non-zero normal and an `Orthonormal` that
completes `z = Normalized(normal)` to an orthonormal frame `(x, y, z)`, the normal
stored for major step `i < slice` and minor step `j < n` (index `i * n + j`) has
unit length, and the vertex at that index is `c + R u_i + r1 normal` with
`u_i = cos(2 pi i / slice) x + sin(2 pi i / slice) y`. -/
theorem C15_torus_normal_exact (O : Vector ℝ → Vector ℝ × Vector ℝ) (t : Torus ℝ)
    (n slice i j : Nat) (hn : t.n ≠ Vector.Null)
    (hxx : (O (Normalized Real.sqrt t.n)).1.dot (O (Normalized Real.sqrt t.n)).1 = 1)
    (hyy : (O (Normalized Real.sqrt t.n)).2.dot (O (Normalized Real.sqrt t.n)).2 = 1)
    (hxy : (O (Normalized Real.sqrt t.n)).1.dot (O (Normalized Real.sqrt t.n)).2 = 0)
    (hxz : (O (Normalized Real.sqrt t.n)).1.dot (Normalized Real.sqrt t.n) = 0)
    (hyz : (O (Normalized Real.sqrt t.n)).2.dot (Normalized Real.sqrt t.n) = 0)
    (hi : i < slice) (hj : j < n) :
    ∃ nrm v : Vector ℝ,
      (Mesh.ofTorus (⟨Real.sqrt, Real.cos, Real.sin, Real.pi, 2 * Real.pi⟩ : Mathematics ℝ)
        O t n slice).normals[i * n + j]? = some nrm ∧
      (Mesh.ofTorus (⟨Real.sqrt, Real.cos, Real.sin, Real.pi, 2 * Real.pi⟩ : Mathematics ℝ)
        O t n slice).vertices[i * n + j]? = some v ∧
      Norm Real.sqrt nrm = 1 ∧
      v = t.c + t.r * (Real.cos (2 * Real.pi * (i : ℝ) / (slice : ℝ)) *
              (O (Normalized Real.sqrt t.n)).1 +
            Real.sin (2 * Real.pi * (i : ℝ) / (slice : ℝ)) *
              (O (Normalized Real.sqrt t.n)).2) + t.s * nrm := by
  obtain ⟨hv, hnrm⟩ := Mesh.ofTorus_entry_at
    (⟨Real.sqrt, Real.cos, Real.sin, Real.pi, 2 * Real.pi⟩ : Mathematics ℝ) O t n slice i j hi hj
  refine ⟨_, _, hnrm, hv, ?_, ?_⟩
  · unfold Norm
    have hdot := torus_direction_unit (O (Normalized Real.sqrt t.n)).1
      (O (Normalized Real.sqrt t.n)).2 (Normalized Real.sqrt t.n)
      (Real.cos ((i : ℝ) * (2 * Real.pi / (slice : ℝ))))
      (Real.sin ((i : ℝ) * (2 * Real.pi / (slice : ℝ))))
      (Real.cos ((j : ℝ) * (2 * Real.pi / (n : ℝ))))
      (Real.sin ((j : ℝ) * (2 * Real.pi / (n : ℝ))))
      hxx hyy (normalized_dot_self t.n hn) hxy hxz hyz
      (Real.cos_sq_add_sin_sq _) (Real.cos_sq_add_sin_sq _)
    have hdot' : (Mesh.torusNormal
        (⟨Real.sqrt, Real.cos, Real.sin, Real.pi, 2 * Real.pi⟩ : Mathematics ℝ)
        (O (Normalized Real.sqrt t.n)).1 (O (Normalized Real.sqrt t.n)).2
        (Normalized Real.sqrt t.n) (2 * Real.pi / (slice : ℝ)) (2 * Real.pi / (n : ℝ)) i j).dot
        (Mesh.torusNormal
        (⟨Real.sqrt, Real.cos, Real.sin, Real.pi, 2 * Real.pi⟩ : Mathematics ℝ)
        (O (Normalized Real.sqrt t.n)).1 (O (Normalized Real.sqrt t.n)).2
        (Normalized Real.sqrt t.n) (2 * Real.pi / (slice : ℝ)) (2 * Real.pi / (n : ℝ)) i j) = 1 :=
      hdot
    rw [hdot', Real.sqrt_one]
  · have harg : (i : ℝ) * (2 * Real.pi / (slice : ℝ)) = 2 * Real.pi * (i : ℝ) / (slice : ℝ) := by
      ring
    rw [← harg]
    rfl

/-- C15 at the torus around the third axis with radii `2` and `1`, `n = slice = 3`,
major step `0` and minor step `0`. -/
theorem C15_torus_normal_exact_witness :
    ∃ nrm v : Vector ℝ,
      (Mesh.ofTorus (⟨Real.sqrt, Real.cos, Real.sin, Real.pi, 2 * Real.pi⟩ : Mathematics ℝ)
        (fun _ => (⟨1, 0, 0⟩, ⟨0, 1, 0⟩)) ⟨⟨⟨0, 0, 0⟩, ⟨0, 0, 1⟩, 2⟩, 1⟩ 3 3).normals[0]? =
          some nrm ∧
      (Mesh.ofTorus (⟨Real.sqrt, Real.cos, Real.sin, Real.pi, 2 * Real.pi⟩ : Mathematics ℝ)
        (fun _ => (⟨1, 0, 0⟩, ⟨0, 1, 0⟩)) ⟨⟨⟨0, 0, 0⟩, ⟨0, 0, 1⟩, 2⟩, 1⟩ 3 3).vertices[0]? =
          some v ∧
      Norm Real.sqrt nrm = 1 := by
  obtain ⟨nrm, v, h1, h2, h3, -⟩ := C15_torus_normal_exact (fun _ => (⟨1, 0, 0⟩, ⟨0, 1, 0⟩))
    ⟨⟨⟨0, 0, 0⟩, ⟨0, 0, 1⟩, 2⟩, 1⟩ 3 3 0 0
    (by intro h; have hz := congrArg Vector.z h; simp [Vector.Null] at hz)
    (by simp [Vector.dot]) (by simp [Vector.dot]) (by simp [Vector.dot])
    (by simp [Vector.dot, Normalized, Vector.scale_def])
    (by simp [Vector.dot, Normalized, Vector.scale_def]) (by decide) (by decide)
  exact ⟨nrm, v, h1, h2, h3⟩


/-- C21: in `Mesh(Box)` vertex `i` is `box.Vertex(i)` and the normals are ordered
`-X, +X, -Y, +Y, -Z, +Z`; every corner of every triangle has a vertex index `v`
in `0..7` and a normal index `f` in `0..5` such that bit `f / 2` of `v` is
`f % 2`; and every corner index of the face `f` (the four `v` in `0..7` whose bit
`f / 2` is `f % 2`) is used by a triangle with normal index `f`. -/
theorem C21_box_triangles_on_faces {R : Type} [LinearOrderedField R] (box : Box R) :
    (Mesh.ofBox box).vertices = (List.range 8).map box.Vertex ∧
    (Mesh.ofBox box).normals =
      [⟨-1, 0, 0⟩, ⟨1, 0, 0⟩, ⟨0, -1, 0⟩, ⟨0, 1, 0⟩, ⟨0, 0, -1⟩, ⟨0, 0, 1⟩] ∧
    (∀ (t : Fin 12) (k : Fin 3), ∃ (v : Fin 8) (f : Fin 6),
      (Mesh.ofBox box).varray[3 * t.val + k.val]? = some v.val ∧
      (Mesh.ofBox box).narray[3 * t.val + k.val]? = some f.val ∧
      (Mesh.ofBox box).narray[3 * t.val]? = some f.val ∧
      (v.val / 2 ^ (f.val / 2)) % 2 = f.val % 2) ∧
    (∀ (f : Fin 6) (v : Fin 8), (v.val / 2 ^ (f.val / 2)) % 2 = f.val % 2 →
      ∃ p : Fin 36, (Mesh.ofBox box).varray[p.val]? = some v.val ∧
        (Mesh.ofBox box).narray[p.val]? = some f.val) := by
  rw [ofBox_narray, ofBox_varray, ofBox_normals]
  refine ⟨rfl, rfl, ?_, ?_⟩
  · decide
  · decide

/-- C21 at the face `+Y` (normal index `3`) of the unit box: its corner `6` is used
by a triangle with normal index `3`. -/
theorem C21_box_triangles_on_faces_witness :
    ∃ p : Fin 36, (Mesh.ofBox (⟨⟨0, 0, 0⟩, ⟨1, 1, 1⟩⟩ : Box ℚ)).varray[p.val]? = some 6 ∧
      (Mesh.ofBox (⟨⟨0, 0, 0⟩, ⟨1, 1, 1⟩⟩ : Box ℚ)).narray[p.val]? = some 3 :=
  (C21_box_triangles_on_faces (⟨⟨0, 0, 0⟩, ⟨1, 1, 1⟩⟩ : Box ℚ)).2.2.2 3 6 (by decide)

end TinyMesh
